import Mathlib

/-!
# Verification of the local-media catalog application

A shallow embedding of the local-media repository (a FastAPI + Vue media
catalog application) together with proofs about its behaviour.

The frontend sources (Vue single-file components) are embedded directly:
string manipulation from JavaScript is modelled over `List Char`
(UTF-16 units of the browser strings; the repository only handles ASCII
paths, where the two agree), so that every definition evaluates inside the
kernel.  The backend service layer (library indexer, job orchestrator,
move operation) is not part of the available sources; those parts are
modelled from the design specification and marked as such in their
doc comments.
-/

/-! ## Character-list toolkit

Helpers mirroring the JavaScript string primitives used by the frontend
(`includes`, `startsWith`, `endsWith`, `split`, `trim`, `toLowerCase`).
They are written by structural recursion so that concrete instances
reduce by `decide`.
-/

/-- Model of JS `a.startsWith(pat)` at the character-list level:
`prefixB pat l` is true when `pat` is a prefix of `l`. -/
def prefixB : List Char → List Char → Bool
  | [], _ => true
  | _ :: _, [] => false
  | a :: as, b :: bs => a == b && prefixB as bs

/-- Model of JS `a.endsWith(pat)` at the character-list level. -/
def suffixB (pat l : List Char) : Bool :=
  prefixB pat.reverse l.reverse

/-- Model of JS `a.includes(pat)` at the character-list level. -/
def containsB (pat : List Char) : List Char → Bool
  | [] => pat.isEmpty
  | c :: rest => prefixB pat (c :: rest) || containsB pat rest

/-- Model of JS `s.split(sep)` at the character-list level; always
returns at least one (possibly empty) segment, like the JS original. -/
def splitOnChar (sep : Char) : List Char → List (List Char)
  | [] => [[]]
  | c :: rest =>
    match splitOnChar sep rest with
    | [] => [[]]
    | s :: ss => if c = sep then [] :: s :: ss else (c :: s) :: ss

/-- Model of JS `parts.pop()` on the non-empty array produced by
`split`: the last segment (default `[]`, never used). -/
def lastSeg : List (List Char) → List Char
  | [] => []
  | [s] => s
  | _ :: s :: ss => lastSeg (s :: ss)

/-- Model of JS `s.toLowerCase()` (ASCII range, which is all the
repository uses) at the character-list level. -/
def lowerChars (l : List Char) : List Char :=
  l.map Char.toLower

/-- Model of JS `s.toLowerCase()` on strings. -/
def lowerStr (s : String) : String :=
  String.mk (lowerChars s.data)

/-- Model of JS `s.trim()`: strip whitespace from both ends. -/
def trimChars (l : List Char) : List Char :=
  ((l.dropWhile Char.isWhitespace).reverse.dropWhile Char.isWhitespace).reverse

/-- Model of JS `hay.includes(pat)` on strings. -/
def strIncludes (hay pat : String) : Bool :=
  containsB pat.data hay.data

/-- Model of JS `hay.endsWith(pat)` on strings. -/
def strEndsWith (hay pat : String) : Bool :=
  suffixB pat.data hay.data

/-- A concrete total order on character lists (codepoint-lexicographic),
used to instantiate the comparator of `Array.prototype.sort`. -/
def leChars : List Char → List Char → Bool
  | [], _ => true
  | _ :: _, [] => false
  | a :: as, b :: bs => a < b || (a == b && leChars as bs)

/-- The codepoint-lexicographic comparator on strings, a concrete
instance of the total order induced by `localeCompare` in the code. -/
def lcLe (a b : String) : Bool :=
  leChars a.data b.data

theorem leChars_total : ∀ a b : List Char, leChars a b = true ∨ leChars b a = true := by
  intro a
  induction a with
  | nil => intro b; left; rfl
  | cons x xs ih =>
    intro b
    cases b with
    | nil => right; rfl
    | cons y ys =>
      rcases lt_trichotomy x y with h | h | h
      · left; simp [leChars, h]
      · subst h
        rcases ih ys with h2 | h2
        · left; simp [leChars, h2]
        · right; simp [leChars, h2]
      · right; simp [leChars, h]

theorem leChars_trans : ∀ a b c : List Char,
    leChars a b = true → leChars b c = true → leChars a c = true := by
  intro a
  induction a with
  | nil => intro b c _ _; rfl
  | cons x xs ih =>
    intro b c hab hbc
    cases b with
    | nil => simp [leChars] at hab
    | cons y ys =>
      cases c with
      | nil => simp [leChars] at hbc
      | cons z zs =>
        simp only [leChars, Bool.or_eq_true, Bool.and_eq_true, beq_iff_eq,
          decide_eq_true_eq] at hab hbc ⊢
        rcases hab with hxy | ⟨hxy, hxs⟩
        · rcases hbc with hyz | ⟨hyz, _⟩
          · exact Or.inl (lt_trans hxy hyz)
          · exact Or.inl (hyz ▸ hxy)
        · subst hxy
          rcases hbc with hyz | ⟨hyz, hys⟩
          · exact Or.inl hyz
          · exact Or.inr ⟨hyz, ih ys zs hxs hys⟩

theorem lcLe_total : ∀ a b : String, lcLe a b = true ∨ lcLe b a = true := by
  intro a b; exact leChars_total a.data b.data

theorem lcLe_trans : ∀ a b c : String,
    lcLe a b = true → lcLe b c = true → lcLe a c = true := by
  intro a b c; exact leChars_trans a.data b.data c.data

theorem prefixB_iff : ∀ pat l : List Char, prefixB pat l = true ↔ pat <+: l := by
  intro pat
  induction pat with
  | nil => intro l; simp [prefixB]
  | cons a as ih =>
    intro l
    cases l with
    | nil =>
      simp only [prefixB]
      constructor
      · intro h; cases h
      · intro h; exact absurd (List.IsPrefix.length_le h) (by simp)
    | cons b bs =>
      simp only [prefixB, Bool.and_eq_true, beq_iff_eq, List.cons_prefix_cons]
      exact and_congr Iff.rfl (ih bs)

theorem suffixB_iff : ∀ pat l : List Char, suffixB pat l = true ↔ pat <:+ l := by
  intro pat l
  unfold suffixB
  rw [prefixB_iff]
  exact List.reverse_prefix

theorem containsB_iff : ∀ (pat l : List Char), containsB pat l = true ↔ pat <:+: l := by
  intro pat l
  induction l with
  | nil =>
    simp only [containsB, List.isEmpty_iff]
    constructor
    · intro h; simp [h]
    · intro h
      have := List.IsInfix.length_le h
      simpa using List.eq_nil_of_length_eq_zero (Nat.le_zero.mp (by simpa using this))
  | cons c rest ih =>
    simp only [containsB, Bool.or_eq_true, prefixB_iff, ih]
    constructor
    · rintro (h | h)
      · exact h.isInfix
      · rcases h with ⟨s, t, hst⟩
        exact ⟨c :: s, t, by simp [hst]⟩
    · intro h
      rcases h with ⟨s, t, hst⟩
      cases s with
      | nil => left; exact ⟨t, by simpa using hst⟩
      | cons x xs =>
        right
        refine ⟨xs, t, ?_⟩
        have := hst
        simp only [List.cons_append] at this
        exact (List.cons.injEq .. ▸ this).2

/-! ## C2: relative-path normalization (`normalizePath`)

From `src/frontend/src/pages/LibraryPage.vue` lines 33-38 (the identical
helper also appears in `src/frontend/src/components/FolderPicker.vue`
lines 22-27):

    function normalizePath(value) {
      return String(value || '')
        .replace(/\\/g, '/')
        .replace(/^\/+/, '')
        .replace(/\/+$/, '')
    }
-/

/-- `.replace(/\\/g, '/')`: every backslash becomes a forward slash. -/
def replaceBackslashChars (l : List Char) : List Char :=
  l.map (fun c => if c = '\\' then '/' else c)

/-- The frontend path-normalization helper (`normalizePath` in
`LibraryPage.vue` and `FolderPicker.vue`): backslashes to slashes, then
strip leading slashes (`/^\/+/`) and trailing slashes (`/\/+$/`). -/
def normalizePath (value : String) : String :=
  String.mk
    ((((replaceBackslashChars value.data).dropWhile (fun c => c = '/')).reverse.dropWhile
        (fun c => c = '/')).reverse)

/-- The `/`-separated segments of a path, as JS `s.split('/')`. -/
def pathSegments (s : String) : List String :=
  (splitOnChar '/' s.data).map String.mk

theorem head?_of_prefix {α : Type} {l₁ l₂ : List α} (h : l₁ <+: l₂) (hne : l₁ ≠ []) :
    l₁.head? = l₂.head? := by
  rcases h with ⟨t, rfl⟩
  cases l₁ with
  | nil => exact absurd rfl hne
  | cons a as => rfl

theorem stripTrailing_prefix {α : Type} (p : α → Bool) (l : List α) :
    (l.reverse.dropWhile p).reverse <+: l := by
  have h := List.reverse_prefix.mpr (List.dropWhile_suffix (l := l.reverse) p)
  simpa using h

theorem dropWhile_head?_not {α : Type} (p : α → Bool) (l : List α) (a : α)
    (h : (l.dropWhile p).head? = some a) : p a = false := by
  have := List.head?_dropWhile_not p l
  rw [h] at this
  exact this

/-- C2, amended part: the output of `normalizePath` never starts with a
slash, never ends with a slash, and contains no backslash. -/
theorem normalizePath_shape (s : String) :
    (normalizePath s).data.head? ≠ some '/' ∧
    (normalizePath s).data.getLast? ≠ some '/' ∧
    '\\' ∉ (normalizePath s).data := by
  set mid : List Char :=
    (replaceBackslashChars s.data).dropWhile (fun c => c = '/') with hmid
  have hout : (normalizePath s).data = (mid.reverse.dropWhile (fun c => c = '/')).reverse := rfl
  refine ⟨?_, ?_, ?_⟩
  · -- no leading slash: the output is a prefix of `mid`, whose head is not '/'
    intro hhead
    rw [hout] at hhead
    have hpre : (mid.reverse.dropWhile (fun c => c = '/')).reverse <+: mid :=
      stripTrailing_prefix _ mid
    have hne : (mid.reverse.dropWhile (fun c => c = '/')).reverse ≠ [] := by
      intro h; rw [h] at hhead; cases hhead
    have := head?_of_prefix hpre hne
    rw [hhead] at this
    have hm := dropWhile_head?_not (fun c => c = '/') (replaceBackslashChars s.data) '/' this.symm
    simp at hm
  · -- no trailing slash
    intro hlast
    rw [hout] at hlast
    rw [List.getLast?_reverse] at hlast
    have hm := dropWhile_head?_not (fun c => c = '/') mid.reverse '/' hlast
    simp at hm
  · -- no backslash survives the global replacement
    intro hmem
    rw [hout] at hmem
    have h1 : '\\' ∈ mid.reverse.dropWhile (fun c => c = '/') := by
      simpa using hmem
    have h2 : '\\' ∈ mid := by
      have := (List.dropWhile_suffix (l := mid.reverse) (fun c => c = '/')).subset h1
      simpa using this
    have h3 : '\\' ∈ replaceBackslashChars s.data :=
      (List.dropWhile_suffix (fun c => c = '/')).subset h2
    rcases List.mem_map.mp h3 with ⟨c, _, hc⟩
    by_cases hbc : c = '\\' <;> simp [hbc] at hc

/-- C2, counterexample to the claim as stated: `normalizePath` does not
remove `..` segments, so the normalized form of `"../secret"` still
escapes the root. -/
theorem normalizePath_dotdot_counterexample :
    normalizePath "../secret" = "../secret" ∧
    ".." ∈ pathSegments (normalizePath "../secret") := by
  constructor
  · rfl
  · decide

/-! ## Split/segment lemmas for `splitOnChar` -/

theorem splitOnChar_ne_nil (sep : Char) : ∀ l : List Char, splitOnChar sep l ≠ [] := by
  intro l
  cases l with
  | nil => simp [splitOnChar]
  | cons c rest =>
    simp only [splitOnChar]
    rcases h : splitOnChar sep rest with _ | ⟨s, ss⟩
    · simp
    · by_cases hc : c = sep <;> simp [hc]

theorem splitOnChar_not_mem (sep : Char) :
    ∀ l : List Char, sep ∉ l → splitOnChar sep l = [l] := by
  intro l
  induction l with
  | nil => intro _; rfl
  | cons c rest ih =>
    intro h
    have hc : c ≠ sep := fun hh => h (hh ▸ List.mem_cons_self c rest)
    have hrest : sep ∉ rest := fun hh => h (List.mem_cons_of_mem c hh)
    simp only [splitOnChar, ih hrest]
    simp [hc]

theorem splitOnChar_len_ge_two (sep : Char) :
    ∀ l : List Char, sep ∈ l → 2 ≤ (splitOnChar sep l).length := by
  intro l
  induction l with
  | nil => intro h; cases h
  | cons c rest ih =>
    intro h
    simp only [splitOnChar]
    rcases hs : splitOnChar sep rest with _ | ⟨s, ss⟩
    · exact absurd hs (splitOnChar_ne_nil sep rest)
    · by_cases hc : c = sep
      · simp [hc]
      · have hrest : sep ∈ rest := by
          rcases List.mem_cons.mp h with h1 | h1
          · exact absurd h1.symm hc
          · exact h1
        have := ih hrest
        rw [hs] at this
        simp only [hc, if_neg hc, List.length_cons] at this ⊢
        simpa using this

theorem lastSeg_cons_of_ne_nil (a : List Char) :
    ∀ t : List (List Char), t ≠ [] → lastSeg (a :: t) = lastSeg t := by
  intro t h
  cases t with
  | nil => exact absurd rfl h
  | cons b t' => rfl

theorem lastSeg_splitOnChar_append (sep : Char) :
    ∀ (pre suf : List Char), sep ∉ suf →
      lastSeg (splitOnChar sep (pre ++ sep :: suf)) = suf := by
  intro pre
  induction pre with
  | nil =>
    intro suf hsuf
    simp only [List.nil_append, splitOnChar]
    rw [splitOnChar_not_mem sep suf hsuf]
    rfl
  | cons c pre' ih =>
    intro suf hsuf
    rcases hs : splitOnChar sep (pre' ++ sep :: suf) with _ | ⟨s, ss⟩
    · exact absurd hs (splitOnChar_ne_nil sep _)
    · have hss : ss ≠ [] := by
        intro hnil
        have h2 := splitOnChar_len_ge_two sep (pre' ++ sep :: suf) (by simp)
        rw [hs, hnil] at h2
        simp at h2
      have hlast : lastSeg (s :: ss) = suf := by
        have := ih suf hsuf
        rw [hs] at this
        exact this
      have hstep : splitOnChar sep (c :: (pre' ++ sep :: suf)) =
          if c = sep then [] :: s :: ss else (c :: s) :: ss := by
        simp only [splitOnChar, hs]
      by_cases hc : c = sep
      · rw [List.cons_append, hstep, if_pos hc]
        rw [lastSeg_cons_of_ne_nil _ (s :: ss) (by simp), hlast]
      · rw [List.cons_append, hstep, if_neg hc]
        rw [lastSeg_cons_of_ne_nil _ ss hss]
        rw [lastSeg_cons_of_ne_nil s ss hss] at hlast
        exact hlast

theorem exists_last_sep_split (sep : Char) :
    ∀ l : List Char, sep ∈ l → ∃ pre suf, l = pre ++ sep :: suf ∧ sep ∉ suf := by
  intro l
  induction l with
  | nil => intro h; cases h
  | cons c rest ih =>
    intro h
    by_cases hrest : sep ∈ rest
    · rcases ih hrest with ⟨pre, suf, heq, hns⟩
      exact ⟨c :: pre, suf, by simp [heq], hns⟩
    · have hc : c = sep := by
        rcases List.mem_cons.mp h with h1 | h1
        · exact h1.symm
        · exact absurd h1 hrest
      exact ⟨[], rest, by simp [hc], hrest⟩

/-! ## C8: watch page playback plan (`loadVideo` in `src/unnamed/part_004`)

The watch page decides how to play a video (lines 97-121 of
`src/unnamed/part_004`):

    const isHLS = found.rel_path.toLowerCase().includes('master.m3u8') ||
                  found.rel_path.toLowerCase().includes('_hls/')
    let videoSrc = found.stream_url
    let videoType = 'video/mp4'
    if (isHLS) {
      videoSrc = found.stream_url.replace(/\/[^/]+$/, '/master.m3u8')
      videoType = 'application/x-mpegURL'
    } else {
      const ext = found.rel_path.toLowerCase().split('.').pop()
      const unsupportedFormats = ['mkv', 'avi', 'wmv', 'flv', 'mov', 'm4v']
      if (unsupportedFormats.includes(ext)) {
        error.value = `Format .${ext} is not supported ...`
        return
      }
      videoType = mimeTypeFromPath(found.rel_path)
    }
-/

/-- `mimeTypeFromPath` from `src/unnamed/part_004` lines 58-69. -/
def mimeTypeFromPath (path : String) : String :=
  let p := lowerStr path
  if strEndsWith p ".mkv" || strEndsWith p ".avi" || strEndsWith p ".wmv" ||
      strEndsWith p ".flv" || strEndsWith p ".mov" || strEndsWith p ".m4v" then
    "video/mp4"
  else if strEndsWith p ".mp4" then "video/mp4"
  else if strEndsWith p ".webm" then "video/webm"
  else if strEndsWith p ".ogg" || strEndsWith p ".ogv" then "video/ogg"
  else "video/mp4"

/-- The HLS detection of `loadVideo` (lines 98-99). -/
def isHLS (rel_path : String) : Bool :=
  strIncludes (lowerStr rel_path) "master.m3u8" || strIncludes (lowerStr rel_path) "_hls/"

/-- `found.rel_path.toLowerCase().split('.').pop()` (line 111). -/
def extOf (rel_path : String) : String :=
  String.mk (lastSeg (splitOnChar '.' (lowerStr rel_path).data))

/-- `['mkv', 'avi', 'wmv', 'flv', 'mov', 'm4v']` (line 112). -/
def unsupportedFormats : List String :=
  ["mkv", "avi", "wmv", "flv", "mov", "m4v"]

/-- `found.stream_url.replace(/\/[^\/]+$/, '/master.m3u8')` (line 106):
replace the final path segment with `master.m3u8`; no match (no slash, or
trailing slash) leaves the url unchanged. -/
def hlsMasterUrl (stream_url : String) : String :=
  let rev := stream_url.data.reverse
  let seg := rev.takeWhile (fun c => c ≠ '/')
  if seg.isEmpty || seg.length = rev.length then stream_url
  else String.mk ((rev.drop (seg.length + 1)).reverse ++ ('/' :: "master.m3u8".data))

/-- Outcome of the playback-setup branch of `loadVideo`. -/
inductive PlayPlan where
  | hls (videoSrc videoType : String)
  | unsupported (message : String)
  | direct (videoSrc videoType : String)
deriving DecidableEq

/-- The playback decision of `loadVideo` (lines 97-121 of
`src/unnamed/part_004`): HLS paths get the master playlist, otherwise
files with an extension in `unsupportedFormats` produce a user-visible
error and no player source, and the rest play directly with the type
from `mimeTypeFromPath`. -/
def loadVideoPlan (rel_path stream_url : String) : PlayPlan :=
  if isHLS rel_path then
    PlayPlan.hls (hlsMasterUrl stream_url) "application/x-mpegURL"
  else
    let ext := extOf rel_path
    if ext ∈ unsupportedFormats then
      PlayPlan.unsupported
        ("Format ." ++ ext ++
          " is not supported for direct playback. Please use Jellyfin for transcoding support.")
    else
      PlayPlan.direct stream_url (mimeTypeFromPath rel_path)

theorem extOf_no_dot (rel : String) (h : '.' ∉ (lowerStr rel).data) :
    extOf rel = lowerStr rel := by
  unfold extOf
  rw [splitOnChar_not_mem '.' _ h]
  rfl

theorem extOf_with_dot (rel : String) (h : '.' ∈ (lowerStr rel).data) :
    strEndsWith (lowerStr rel) (String.mk ('.' :: (extOf rel).data)) = true := by
  rcases exists_last_sep_split '.' _ h with ⟨pre, suf, heq, hns⟩
  have hext : (extOf rel).data = suf := by
    unfold extOf
    rw [heq, lastSeg_splitOnChar_append '.' pre suf hns]
  unfold strEndsWith
  rw [suffixB_iff]
  rw [hext]
  exact ⟨pre, heq.symm⟩

/-- C8: when a video is not detected as HLS and its extension (as
computed by the code) is one of the formats the page refuses, `loadVideo`
produces the user-visible error and never a player source — although
`mimeTypeFromPath` classifies exactly those extensions as `video/mp4`
(the backend-transcodable type). -/
theorem watchPage_unsupported_format (rel url : String)
    (hhls : isHLS rel = false) (hext : extOf rel ∈ unsupportedFormats) :
    loadVideoPlan rel url =
      PlayPlan.unsupported
        ("Format ." ++ extOf rel ++
          " is not supported for direct playback. Please use Jellyfin for transcoding support.") ∧
    mimeTypeFromPath rel = "video/mp4" := by
  constructor
  · simp only [loadVideoPlan, hhls, Bool.false_eq_true, if_false]
    rw [if_pos hext]
  · by_cases hdot : '.' ∈ (lowerStr rel).data
    · have hend := extOf_with_dot rel hdot
      simp only [unsupportedFormats, List.mem_cons, List.mem_singleton,
        List.not_mem_nil, or_false] at hext
      rcases hext with h | h | h | h | h | h <;> rw [h] at hend
      · have hend' : strEndsWith (lowerStr rel) ".mkv" = true := by
          have e : (".mkv" : String) = String.mk ('.' :: ("mkv" : String).data) := by decide
          rw [e]; exact hend
        simp [mimeTypeFromPath, hend']
      · have hend' : strEndsWith (lowerStr rel) ".avi" = true := by
          have e : (".avi" : String) = String.mk ('.' :: ("avi" : String).data) := by decide
          rw [e]; exact hend
        simp [mimeTypeFromPath, hend']
      · have hend' : strEndsWith (lowerStr rel) ".wmv" = true := by
          have e : (".wmv" : String) = String.mk ('.' :: ("wmv" : String).data) := by decide
          rw [e]; exact hend
        simp [mimeTypeFromPath, hend']
      · have hend' : strEndsWith (lowerStr rel) ".flv" = true := by
          have e : (".flv" : String) = String.mk ('.' :: ("flv" : String).data) := by decide
          rw [e]; exact hend
        simp [mimeTypeFromPath, hend']
      · have hend' : strEndsWith (lowerStr rel) ".mov" = true := by
          have e : (".mov" : String) = String.mk ('.' :: ("mov" : String).data) := by decide
          rw [e]; exact hend
        simp [mimeTypeFromPath, hend']
      · have hend' : strEndsWith (lowerStr rel) ".m4v" = true := by
          have e : (".m4v" : String) = String.mk ('.' :: ("m4v" : String).data) := by decide
          rw [e]; exact hend
        simp [mimeTypeFromPath, hend']
    · have heq := extOf_no_dot rel hdot
      simp only [unsupportedFormats, List.mem_cons, List.mem_singleton,
        List.not_mem_nil, or_false] at hext
      rcases hext with h | h | h | h | h | h <;>
        · have hl : lowerStr rel = _ := heq ▸ h
          simp only [mimeTypeFromPath]
          rw [hl]
          decide

/-- Witness for C8: the file `movie.mkv` satisfies both hypotheses and
triggers the unsupported-format error while being typed `video/mp4`. -/
theorem watchPage_unsupported_format_witness :
    isHLS "movie.mkv" = false ∧ extOf "movie.mkv" ∈ unsupportedFormats ∧
    loadVideoPlan "movie.mkv" "/api/stream/42" =
      PlayPlan.unsupported
        ("Format ." ++ extOf "movie.mkv" ++
          " is not supported for direct playback. Please use Jellyfin for transcoding support.") ∧
    mimeTypeFromPath "movie.mkv" = "video/mp4" :=
  ⟨by decide, by decide,
    (watchPage_unsupported_format "movie.mkv" "/api/stream/42" (by decide) (by decide)).1,
    (watchPage_unsupported_format "movie.mkv" "/api/stream/42" (by decide) (by decide)).2⟩

/-! ## C9: resume position on the watch page

From `src/unnamed/part_004` lines 295-304:

    const startFrom = Number(pr.position_seconds || 0)
    player.value.one('loadedmetadata', () => {
      const duration = Number(player.value?.duration() || 0)
      if (startFrom > 0 && startFrom < duration - 3) {
        player.value.currentTime(startFrom)
      }
    })

Playback positions are JS numbers; they are modelled as rationals (the
logic only compares and subtracts, where rationals agree with IEEE
doubles on the in-range values the player reports).
-/

/-- The seek command issued on `loadedmetadata`: seek to the saved
position exactly when `startFrom > 0 && startFrom < duration - 3`. -/
def seekTarget (startFrom duration : ℚ) : Option ℚ :=
  if 0 < startFrom ∧ startFrom < duration - 3 then some startFrom else none

/-- Effective start position: the seek target if a seek happens,
otherwise the player default `0`. -/
def resumeStart (startFrom duration : ℚ) : ℚ :=
  (seekTarget startFrom duration).getD 0

/-- C9: playback resumes at the saved position `p` precisely when
`0 < p` and `p < d - 3`; in every other case it starts at `0`. -/
theorem watch_resume_position (p d : ℚ) :
    (0 < p → p < d - 3 → resumeStart p d = p ∧ seekTarget p d = some p) ∧
    (¬(0 < p ∧ p < d - 3) → resumeStart p d = 0 ∧ seekTarget p d = none) := by
  constructor
  · intro h1 h2
    constructor <;> simp [resumeStart, seekTarget, h1, h2]
  · intro h
    constructor <;> simp [resumeStart, seekTarget, h]

/-- Witness for C9 at saved position 7s of a 60s video (seek happens)
and at 9s of a 10s video (tail guard: no seek). -/
theorem watch_resume_position_witness :
    (0:ℚ) < 7 ∧ (7:ℚ) < 60 - 3 ∧ resumeStart 7 60 = 7 ∧ resumeStart 9 10 = 0 :=
  ⟨by norm_num, by norm_num,
    ((watch_resume_position 7 60).1 (by norm_num) (by norm_num)).1,
    ((watch_resume_position 9 10).2 (by norm_num)).1⟩

/-! ## C3: the job-status vocabulary observed by the UI

From `src/frontend/src/pages/TorrentsPage.vue` lines 172-181 (the status
cell class bindings), line 183 (progress bar), lines 199 and 208 (action
buttons), and the YouTube page in `src/unnamed/part_005` lines 239-247
and line 273.  These are the API consumers of the job records: the
statuses they distinguish are `queued`, `downloading`, `done`, `failed`
and `stopped` — the active state is called `downloading`, and no branch
anywhere handles a status `running`.
-/

/-- The torrents page status cell (`:class` binding, lines 173-178):
yellow for `downloading`/`queued`, green for `done`, red for `failed`,
gray for `stopped`. -/
def torrentStatusClasses (status : String) : List String :=
  (if status = "downloading" ∨ status = "queued" then ["text-yellow-400"] else []) ++
  (if status = "done" then ["text-green-400"] else []) ++
  (if status = "failed" then ["text-red-400"] else []) ++
  (if status = "stopped" then ["text-gray-400"] else [])

/-- The YouTube page status cell (`src/unnamed/part_005` lines 240-244):
same palette, without a `stopped` case. -/
def youtubeStatusClasses (status : String) : List String :=
  (if status = "downloading" ∨ status = "queued" then ["text-yellow-400"] else []) ++
  (if status = "done" then ["text-green-400"] else []) ++
  (if status = "failed" then ["text-red-400"] else [])

/-- Stop button visibility (`TorrentsPage.vue` line 199). -/
def stopVisible (status : String) : Bool :=
  status == "downloading" || status == "queued"

/-- Restart button visibility (`TorrentsPage.vue` line 208). -/
def restartVisible (status : String) : Bool :=
  status == "stopped" || status == "failed"

/-- Retry button visibility (`src/unnamed/part_005` line 273). -/
def retryVisible (status : String) : Bool :=
  status == "failed"

/-- Progress bar visibility (`TorrentsPage.vue` line 183): only under
status `downloading` with a non-null progress value. -/
def progressVisible (status : String) (hasProgress : Bool) : Bool :=
  status == "downloading" && hasProgress

/-- C3 counterexample to the claim as stated: the consumers style and
offer actions for the status `downloading`, which is outside the claimed
set `{queued, running, done, failed, stopped}`, while the claimed status
`running` is handled by no branch at all (no style, no stop button, no
progress bar). -/
theorem job_status_downloading_counterexample :
    torrentStatusClasses "downloading" = ["text-yellow-400"] ∧
    torrentStatusClasses "running" = [] ∧
    stopVisible "downloading" = true ∧
    stopVisible "running" = false ∧
    progressVisible "running" true = false ∧
    "downloading" ∉ (["queued", "running", "done", "failed", "stopped"] : List String) := by
  decide

/-- C3 amended: the job statuses the API consumers observe and handle
are exactly `queued`, `downloading`, `done`, `failed`, `stopped` (the
active state is named `downloading`, not `running`). -/
theorem job_status_vocabulary (s : String) :
    (torrentStatusClasses s ≠ [] ∨ youtubeStatusClasses s ≠ []) ↔
      s ∈ (["queued", "downloading", "done", "failed", "stopped"] : List String) := by
  by_cases h1 : s = "downloading" <;> by_cases h2 : s = "queued" <;>
    by_cases h3 : s = "done" <;> by_cases h4 : s = "failed" <;> by_cases h5 : s = "stopped" <;>
    simp [torrentStatusClasses, youtubeStatusClasses, h1, h2, h3, h4, h5]

/-! ## The catalog data model

`MediaEntry` as the API consumers see it (`/api/videos` items carry
`id`, `source_id`, `rel_path`, `title`, plus size/mtime metadata).  The
`id` is an opaque stable identifier; it is modelled as a number.
-/

structure MediaEntry where
  id : Nat
  source_id : String
  rel_path : String
  title : String
  size_bytes : Nat
  modified_at : Nat
deriving DecidableEq, Repr

/-! ## C1: library search (`searchResults` in `LibraryPage.vue`)

From `src/frontend/src/pages/LibraryPage.vue` lines 126-133:

    const searchResults = computed(() => {
      const q = search.value.trim().toLowerCase()
      if (!q) return []
      const pool = selectedSource.value ? sourceVideos.value : videos.value
      return pool
        .filter(v => v.title.toLowerCase().includes(q) || v.rel_path.toLowerCase().includes(q))
        .sort((a, b) => a.rel_path.localeCompare(b.rel_path))
    })

The sort comparator `localeCompare` induces a total order on strings;
the embedding abstracts it as a parameter `lc` (the locale "less or
equal") assumed transitive and total, instantiated with the concrete
codepoint order `lcLe` in witnesses.
-/

/-- The filter predicate of `searchResults`: the (already trimmed and
lowercased) query occurs in the lowercased title or rel_path. -/
def searchMatches (q : List Char) (v : MediaEntry) : Bool :=
  containsB q (lowerChars v.title.data) || containsB q (lowerChars v.rel_path.data)

/-- The comparator relation `(a, b) => a.rel_path.localeCompare(b.rel_path)`. -/
def byRelPath (lc : String → String → Bool) (a b : MediaEntry) : Prop :=
  lc a.rel_path b.rel_path = true

instance (lc : String → String → Bool) : DecidableRel (byRelPath lc) :=
  fun a b => instDecidableEqBool (lc a.rel_path b.rel_path) true

/-- `searchResults` of `LibraryPage.vue` (lines 126-133), over an
explicit pool of catalog entries. -/
def searchResults (lc : String → String → Bool) (videos : List MediaEntry)
    (search : String) : List MediaEntry :=
  let q := lowerChars (trimChars search.data)
  if q.isEmpty then []
  else List.insertionSort (byRelPath lc) (videos.filter (searchMatches q))

/-- C1, amended: for every pool and every query whose trimmed form is
non-empty, the search returns exactly (as a multiset) the entries whose
lowercased title or rel_path contains the trimmed lowercased query, in
ascending rel_path order per the sort comparator. -/
theorem searchResults_spec (lc : String → String → Bool)
    (htrans : ∀ a b c, lc a b = true → lc b c = true → lc a c = true)
    (htot : ∀ a b, lc a b = true ∨ lc b a = true)
    (videos : List MediaEntry) (search : String)
    (hq : trimChars search.data ≠ []) :
    (searchResults lc videos search).Perm
        (videos.filter (searchMatches (lowerChars (trimChars search.data)))) ∧
    (searchResults lc videos search).Pairwise
        (fun a b => lc a.rel_path b.rel_path = true) := by
  have hqe : (lowerChars (trimChars search.data)).isEmpty = false := by
    cases h : trimChars search.data with
    | nil => exact absurd h hq
    | cons c cs => simp [lowerChars, h]
  unfold searchResults
  simp only [hqe, Bool.false_eq_true, if_false]
  constructor
  · exact List.perm_insertionSort _ _
  · haveI : IsTotal MediaEntry (byRelPath lc) := ⟨fun a b => htot a.rel_path b.rel_path⟩
    haveI : IsTrans MediaEntry (byRelPath lc) :=
      ⟨fun a b c hab hbc => htrans a.rel_path b.rel_path c.rel_path hab hbc⟩
    exact List.sorted_insertionSort (byRelPath lc) _

/-- Witness for C1 on a two-entry pool and the query `" b "`: the match
is decided against the trimmed query `"b"`. -/
theorem searchResults_spec_witness :
    trimChars (" b " : String).data ≠ [] ∧
    (searchResults lcLe
        [⟨1, "s", "movies/b.mp4", "B movie", 10, 10⟩, ⟨2, "s", "a.mkv", "zz", 0, 0⟩]
        " b ").Perm
      (([⟨1, "s", "movies/b.mp4", "B movie", 10, 10⟩, ⟨2, "s", "a.mkv", "zz", 0, 0⟩] :
          List MediaEntry).filter
        (searchMatches (lowerChars (trimChars (" b " : String).data)))) ∧
    (searchResults lcLe
        [⟨1, "s", "movies/b.mp4", "B movie", 10, 10⟩, ⟨2, "s", "a.mkv", "zz", 0, 0⟩]
        " b ").Pairwise (fun a b => lcLe a.rel_path b.rel_path = true) :=
  ⟨by decide,
    (searchResults_spec lcLe lcLe_trans lcLe_total
      [⟨1, "s", "movies/b.mp4", "B movie", 10, 10⟩, ⟨2, "s", "a.mkv", "zz", 0, 0⟩]
      " b " (by decide)).1,
    (searchResults_spec lcLe lcLe_trans lcLe_total
      [⟨1, "s", "movies/b.mp4", "B movie", 10, 10⟩, ⟨2, "s", "a.mkv", "zz", 0, 0⟩]
      " b " (by decide)).2⟩

/-- C1, counterexample to the claim as stated: the query `" "` is a
non-empty string and the entry titled `"a b"` contains it as a
substring, yet the search trims the query first and returns nothing. -/
theorem search_whitespace_counterexample :
    searchResults lcLe [⟨1, "s", "p", "a b", 0, 0⟩] " " = [] ∧
    strIncludes (lowerStr "a b") (lowerStr " ") = true := by
  constructor
  · decide
  · decide

/-! ## C10: folder-contents listing (`folderEntries` in `LibraryPage.vue`)

From `src/frontend/src/pages/LibraryPage.vue` lines 92-124: the computed
listing walks the selected source's videos, filters them to the current
folder `base`, collects the first path segment of deeper items as a
deduplicated folder set (a JS `Map` keyed by name), collects direct
children as file entries, and returns folders sorted by name followed by
files sorted by `rel_path`.
-/

structure FolderEntry where
  name : String
  path : String
deriving DecidableEq, Repr

inductive LibEntry where
  | folder (f : FolderEntry)
  | file (v : MediaEntry)
deriving DecidableEq, Repr

/-- What the loop body (lines 98-119) does with a single item:
skip it, contribute a subfolder entry, or contribute a file entry. -/
inductive StepKind where
  | skip
  | folderK (name path : String)
  | fileK
deriving DecidableEq, Repr

/-- Faithful translation of the loop body of `folderEntries`
(lines 98-118): the filter `base && !(rel === base || rel.startsWith(base + '/'))`,
the remainder `rel.slice(base.length + (rel === base ? 0 : 1))`, the
`rest.split('/')` test, and the folder path
`normalizePath(base ? base + '/' + folderName : folderName)`. -/
def classifyItem (base : String) (item : MediaEntry) : StepKind :=
  let rel := normalizePath item.rel_path
  if base ≠ "" ∧ ¬(rel = base ∨ prefixB (base.data ++ ['/']) rel.data = true) then
    StepKind.skip
  else
    let rest : List Char :=
      if base = "" then rel.data
      else rel.data.drop (base.data.length + (if rel = base then 0 else 1))
    if rest.isEmpty then StepKind.skip
    else
      let parts := splitOnChar '/' rest
      if parts.length > 1 then
        let folderName := String.mk (parts.headD [])
        StepKind.folderK folderName
          (normalizePath (if base = "" then folderName else base ++ "/" ++ folderName))
      else StepKind.fileK

/-- One iteration of the loop: a `Map`-deduplicated folder list (append
if the name is new) and an appended file list. -/
def folderStep (base : String) (acc : List FolderEntry × List MediaEntry)
    (item : MediaEntry) : List FolderEntry × List MediaEntry :=
  match classifyItem base item with
  | StepKind.skip => acc
  | StepKind.folderK n p =>
    if acc.1.any (fun f => f.name == n) then acc else (acc.1 ++ [⟨n, p⟩], acc.2)
  | StepKind.fileK => (acc.1, acc.2 ++ [item])

/-- The comparator `(a, b) => a.name.localeCompare(b.name)` (line 121). -/
def byName (lc : String → String → Bool) (a b : FolderEntry) : Prop :=
  lc a.name b.name = true

instance (lc : String → String → Bool) : DecidableRel (byName lc) :=
  fun a b => instDecidableEqBool (lc a.name b.name) true

/-- `folderEntries` of `LibraryPage.vue` (lines 92-124): empty without a
selected source; otherwise sorted folders, then sorted files. -/
def folderEntries (lc : String → String → Bool) (videos : List MediaEntry)
    (selectedSource base : String) : List LibEntry :=
  if selectedSource = "" then []
  else
    let pool := videos.filter (fun v => v.source_id == selectedSource)
    let acc := pool.foldl (folderStep base) ([], [])
    (List.insertionSort (byName lc) acc.1).map LibEntry.folder ++
      (List.insertionSort (byRelPath lc) acc.2).map LibEntry.file

/-- Spec-side description of an immediate subfolder of `base`: some item
of the pool lies strictly below `base/n` (below `n` at the source root
when `base` is empty), where `n` is a single path segment. -/
def isImmediateSubfolder (base : String) (pool : List MediaEntry) (n : String) : Prop :=
  '/' ∉ n.data ∧
  ∃ v ∈ pool, ∃ more : List Char,
    (normalizePath v.rel_path).data =
      (if base = "" then ([] : List Char) else base.data ++ ['/']) ++ n.data ++ '/' :: more

theorem exists_first_sep_split (sep : Char) :
    ∀ l : List Char, sep ∈ l → ∃ pre suf, l = pre ++ sep :: suf ∧ sep ∉ pre := by
  intro l
  induction l with
  | nil => intro h; cases h
  | cons c rest ih =>
    intro h
    by_cases hc : c = sep
    · exact ⟨[], rest, by simp [hc], by simp⟩
    · have hrest : sep ∈ rest := by
        rcases List.mem_cons.mp h with h1 | h1
        · exact absurd h1.symm hc
        · exact h1
      rcases ih hrest with ⟨pre, suf, heq, hns⟩
      refine ⟨c :: pre, suf, by simp [heq], ?_⟩
      intro hmem
      rcases List.mem_cons.mp hmem with h1 | h1
      · exact hc h1.symm
      · exact hns h1

theorem splitOnChar_append_first (sep : Char) :
    ∀ (pre suf : List Char), sep ∉ pre →
      splitOnChar sep (pre ++ sep :: suf) = pre :: splitOnChar sep suf := by
  intro pre
  induction pre with
  | nil =>
    intro suf _
    rcases hs : splitOnChar sep suf with _ | ⟨s, ss⟩
    · exact absurd hs (splitOnChar_ne_nil sep suf)
    · simp only [List.nil_append, splitOnChar, hs]
      simp
  | cons c pre' ih =>
    intro suf hns
    have hc : c ≠ sep := fun hh => hns (hh ▸ List.mem_cons_self c pre')
    have hns' : sep ∉ pre' := fun hh => hns (List.mem_cons_of_mem c hh)
    have hrec := ih suf hns'
    rcases hs : splitOnChar sep (pre' ++ sep :: suf) with _ | ⟨s, ss⟩
    · exact absurd hs (splitOnChar_ne_nil sep _)
    · rw [hs] at hrec
      have hstep : splitOnChar sep (c :: (pre' ++ sep :: suf)) =
          if c = sep then [] :: s :: ss else (c :: s) :: ss := by
        simp only [splitOnChar, hs]
      rw [List.cons_append, hstep, if_neg hc]
      rw [List.cons.injEq] at hrec
      rw [hrec.1, hrec.2]

theorem splitOnChar_len_one_of_not_mem (sep : Char) (l : List Char) (h : sep ∉ l) :
    (splitOnChar sep l).length = 1 := by
  rw [splitOnChar_not_mem sep l h]
  rfl

theorem mem_of_splitOnChar_len (sep : Char) (l : List Char)
    (h : 1 < (splitOnChar sep l).length) : sep ∈ l := by
  by_contra hmem
  rw [splitOnChar_len_one_of_not_mem sep l hmem] at h
  exact absurd h (by norm_num)

theorem folder_split_iff (rest nd : List Char) :
    (1 < (splitOnChar '/' rest).length ∧ (splitOnChar '/' rest).headD [] = nd) ↔
    ('/' ∉ nd ∧ ∃ more, rest = nd ++ '/' :: more) := by
  constructor
  · rintro ⟨hlen, hhead⟩
    have hmem : '/' ∈ rest := mem_of_splitOnChar_len _ _ hlen
    rcases exists_first_sep_split '/' rest hmem with ⟨pre, suf, heq, hns⟩
    have hsplit := splitOnChar_append_first '/' pre suf hns
    rw [heq, hsplit] at hhead
    simp only [List.headD_cons] at hhead
    subst hhead
    exact ⟨hns, suf, heq⟩
  · rintro ⟨hns, more, rfl⟩
    have hsplit := splitOnChar_append_first '/' nd more hns
    rw [hsplit]
    have hpos : 0 < (splitOnChar '/' more).length :=
      List.length_pos.mpr (splitOnChar_ne_nil '/' more)
    exact ⟨by simpa using hpos, rfl⟩


theorem classify_folderK_iff_root (v : MediaEntry) (n : String) :
    (∃ p, classifyItem "" v = StepKind.folderK n p) ↔
    ('/' ∉ n.data ∧ ∃ more, (normalizePath v.rel_path).data = n.data ++ '/' :: more) := by
  constructor
  · rintro ⟨p, hp⟩
    simp only [classifyItem, ne_eq, not_true_eq_false, false_and, if_false, reduceIte] at hp
    by_cases h1 : (normalizePath v.rel_path).data.isEmpty = true
    · rw [if_pos h1] at hp; cases hp
    · rw [if_neg h1] at hp
      by_cases h2 : (splitOnChar '/' (normalizePath v.rel_path).data).length > 1
      · rw [if_pos h2] at hp
        injection hp with hname _
        have hhead : (splitOnChar '/' (normalizePath v.rel_path).data).headD [] = n.data :=
          congrArg String.data hname
        exact (folder_split_iff _ _).mp ⟨h2, hhead⟩
      · rw [if_neg h2] at hp; cases hp
  · rintro ⟨hns, more, hdec⟩
    have hiff := (folder_split_iff (normalizePath v.rel_path).data n.data).mpr
      ⟨hns, more, hdec⟩
    refine ⟨normalizePath n, ?_⟩
    simp only [classifyItem, ne_eq, not_true_eq_false, false_and, if_false, reduceIte]
    have hne : ¬(normalizePath v.rel_path).data.isEmpty = true := by
      rw [hdec]
      cases n.data <;> simp
    rw [if_neg hne, if_pos hiff.1, hiff.2]

theorem classify_folderK_iff_base (base : String) (hbase : base ≠ "") (v : MediaEntry)
    (n : String) :
    (∃ p, classifyItem base v = StepKind.folderK n p) ↔
    ('/' ∉ n.data ∧ ∃ more,
      (normalizePath v.rel_path).data = base.data ++ '/' :: (n.data ++ '/' :: more)) := by
  constructor
  · rintro ⟨p, hp⟩
    simp only [classifyItem] at hp
    by_cases hfilt : normalizePath v.rel_path = base ∨
        prefixB (base.data ++ ['/']) (normalizePath v.rel_path).data = true
    · rw [if_neg (fun hc => hc.2 hfilt)] at hp
      rw [if_neg hbase] at hp
      by_cases hrb : normalizePath v.rel_path = base
      · exfalso
        rw [if_pos hrb] at hp
        have hdata : (normalizePath v.rel_path).data = base.data := congrArg String.data hrb
        rw [Nat.add_zero, hdata, List.drop_length] at hp
        simp at hp
      · rw [if_neg hrb] at hp
        rcases hfilt with hfilt | hfilt
        · exact absurd hfilt hrb
        · rcases (prefixB_iff _ _).mp hfilt with ⟨t, ht⟩
          have hdrop : List.drop (base.data.length + 1) (normalizePath v.rel_path).data = t := by
            rw [← ht]
            have hl : base.data.length + 1 = (base.data ++ ['/']).length := by simp
            rw [hl, List.drop_left]
          rw [hdrop] at hp
          by_cases hempty : t.isEmpty = true
          · rw [if_pos hempty] at hp; cases hp
          · rw [if_neg hempty] at hp
            by_cases hlen : (splitOnChar '/' t).length > 1
            · rw [if_pos hlen] at hp
              injection hp with hname _
              have hhead : (splitOnChar '/' t).headD [] = n.data :=
                congrArg String.data hname
              rcases (folder_split_iff t n.data).mp ⟨hlen, hhead⟩ with ⟨hns, more, rfl⟩
              refine ⟨hns, more, ?_⟩
              rw [← ht]
              simp
            · rw [if_neg hlen] at hp; cases hp
    · rw [if_pos ⟨hbase, hfilt⟩] at hp
      cases hp
  · rintro ⟨hns, more, hdec⟩
    have hpre : prefixB (base.data ++ ['/']) (normalizePath v.rel_path).data = true := by
      rw [prefixB_iff, hdec]
      exact ⟨n.data ++ '/' :: more, by simp⟩
    have hrelne : normalizePath v.rel_path ≠ base := by
      intro heq
      have hd : (normalizePath v.rel_path).data = base.data := congrArg String.data heq
      rw [hdec] at hd
      have hlen := congrArg List.length hd
      simp at hlen
    have hdrop : List.drop (base.data.length + 1) (normalizePath v.rel_path).data =
        n.data ++ '/' :: more := by
      rw [hdec]
      have hshape : base.data ++ '/' :: (n.data ++ '/' :: more) =
          (base.data ++ ['/']) ++ (n.data ++ '/' :: more) := by simp
      rw [hshape]
      have hl : base.data.length + 1 = (base.data ++ ['/']).length := by simp
      rw [hl, List.drop_left]
    have hiff := (folder_split_iff (n.data ++ '/' :: more) n.data).mpr ⟨hns, more, rfl⟩
    refine ⟨normalizePath (base ++ "/" ++ n), ?_⟩
    simp only [classifyItem]
    rw [if_neg (fun hc => hc.2 (Or.inr hpre))]
    rw [if_neg hbase, if_neg hrelne, hdrop]
    have hne : ¬(n.data ++ '/' :: more).isEmpty = true := by
      cases n.data <;> simp
    rw [if_neg hne, if_pos hiff.1, hiff.2, if_neg hbase]

theorem classify_fileK_filter (base : String) (v : MediaEntry)
    (h : classifyItem base v = StepKind.fileK) :
    base = "" ∨ normalizePath v.rel_path = base ∨
      prefixB (base.data ++ ['/']) (normalizePath v.rel_path).data = true := by
  by_cases hbase : base = ""
  · exact Or.inl hbase
  · by_cases hfilt : normalizePath v.rel_path = base ∨
        prefixB (base.data ++ ['/']) (normalizePath v.rel_path).data = true
    · exact Or.inr hfilt
    · exfalso
      simp only [classifyItem] at h
      rw [if_pos ⟨hbase, hfilt⟩] at h
      cases h

theorem foldl_names_nodup (base : String) :
    ∀ (pool : List MediaEntry) (acc : List FolderEntry × List MediaEntry),
      (acc.1.map FolderEntry.name).Nodup →
      ((pool.foldl (folderStep base) acc).1.map FolderEntry.name).Nodup := by
  intro pool
  induction pool with
  | nil => intro acc h; simpa using h
  | cons f rest ih =>
    intro acc h
    rw [List.foldl_cons]
    apply ih
    rcases hcls : classifyItem base f with _ | ⟨m, q⟩ | _
    · simpa [folderStep, hcls] using h
    · cases hany : acc.1.any (fun g => g.name == m) with
      | true => simpa [folderStep, hcls, hany] using h
      | false =>
        have hnotmem : m ∉ acc.1.map FolderEntry.name := by
          intro hmem
          rcases List.mem_map.mp hmem with ⟨g, hg, hgname⟩
          have : acc.1.any (fun g => g.name == m) = true :=
            List.any_eq_true.mpr ⟨g, hg, by simp [hgname]⟩
          rw [hany] at this
          cases this
        have hstep : (folderStep base acc f).1 = acc.1 ++ [⟨m, q⟩] := by
          simp [folderStep, hcls, hany]
        rw [hstep, List.map_append]
        rw [List.nodup_append]
        refine ⟨h, List.nodup_singleton m, ?_⟩
        intro x hx hx2
        simp only [List.map_cons, List.map_nil, List.mem_singleton] at hx2
        exact hnotmem (hx2 ▸ hx)
    · simpa [folderStep, hcls] using h

theorem foldl_names_mem (base : String) :
    ∀ (pool : List MediaEntry) (acc : List FolderEntry × List MediaEntry) (n : String),
      n ∈ (pool.foldl (folderStep base) acc).1.map FolderEntry.name ↔
      (n ∈ acc.1.map FolderEntry.name ∨
        ∃ v ∈ pool, ∃ p, classifyItem base v = StepKind.folderK n p) := by
  intro pool
  induction pool with
  | nil => intro acc n; simp
  | cons f rest ih =>
    intro acc n
    rw [List.foldl_cons, ih]
    rcases hcls : classifyItem base f with _ | ⟨m, q⟩ | _
    · have hstep : folderStep base acc f = acc := by simp [folderStep, hcls]
      rw [hstep]
      constructor
      · rintro (h | ⟨v, hv, p, hp⟩)
        · exact Or.inl h
        · exact Or.inr ⟨v, List.mem_cons_of_mem f hv, p, hp⟩
      · rintro (h | ⟨v, hv, p, hp⟩)
        · exact Or.inl h
        · rcases List.mem_cons.mp hv with rfl | hv'
          · rw [hcls] at hp; cases hp
          · exact Or.inr ⟨v, hv', p, hp⟩
    · cases hany : acc.1.any (fun g => g.name == m) with
      | true =>
        have hstep : folderStep base acc f = acc := by simp [folderStep, hcls, hany]
        have hmem : m ∈ acc.1.map FolderEntry.name := by
          rcases List.any_eq_true.mp hany with ⟨g, hg, hgm⟩
          exact List.mem_map.mpr ⟨g, hg, by simpa using hgm⟩
        rw [hstep]
        constructor
        · rintro (h | ⟨v, hv, p, hp⟩)
          · exact Or.inl h
          · exact Or.inr ⟨v, List.mem_cons_of_mem f hv, p, hp⟩
        · rintro (h | ⟨v, hv, p, hp⟩)
          · exact Or.inl h
          · rcases List.mem_cons.mp hv with rfl | hv'
            · rw [hcls] at hp
              injection hp with h1 _
              exact Or.inl (h1 ▸ hmem)
            · exact Or.inr ⟨v, hv', p, hp⟩
      | false =>
        have hstep : (folderStep base acc f).1 = acc.1 ++ [⟨m, q⟩] := by
          simp [folderStep, hcls, hany]
        rw [hstep, List.map_append]
        simp only [List.map_cons, List.map_nil, List.mem_append, List.mem_singleton]
        constructor
        · rintro ((h | h) | ⟨v, hv, p, hp⟩)
          · exact Or.inl h
          · exact Or.inr ⟨f, List.mem_cons_self f rest, q, by rw [hcls, h]⟩
          · exact Or.inr ⟨v, List.mem_cons_of_mem f hv, p, hp⟩
        · rintro (h | ⟨v, hv, p, hp⟩)
          · exact Or.inl (Or.inl h)
          · rcases List.mem_cons.mp hv with rfl | hv'
            · rw [hcls] at hp
              injection hp with h1 _
              exact Or.inl (Or.inr h1.symm)
            · exact Or.inr ⟨v, hv', p, hp⟩
    · have hstep : (folderStep base acc f).1 = acc.1 := by simp [folderStep, hcls]
      rw [hstep]
      constructor
      · rintro (h | ⟨v, hv, p, hp⟩)
        · exact Or.inl h
        · exact Or.inr ⟨v, List.mem_cons_of_mem f hv, p, hp⟩
      · rintro (h | ⟨v, hv, p, hp⟩)
        · exact Or.inl h
        · rcases List.mem_cons.mp hv with rfl | hv'
          · rw [hcls] at hp; cases hp
          · exact Or.inr ⟨v, hv', p, hp⟩

theorem foldl_files_mem (base : String) :
    ∀ (pool : List MediaEntry) (acc : List FolderEntry × List MediaEntry) (v : MediaEntry),
      v ∈ (pool.foldl (folderStep base) acc).2 ↔
      (v ∈ acc.2 ∨ (v ∈ pool ∧ classifyItem base v = StepKind.fileK)) := by
  intro pool
  induction pool with
  | nil => intro acc v; simp
  | cons f rest ih =>
    intro acc v
    rw [List.foldl_cons, ih]
    rcases hcls : classifyItem base f with _ | ⟨m, q⟩ | _
    · have hstep : (folderStep base acc f).2 = acc.2 := by simp [folderStep, hcls]
      rw [hstep]
      constructor
      · rintro (h | ⟨hv, hk⟩)
        · exact Or.inl h
        · exact Or.inr ⟨List.mem_cons_of_mem f hv, hk⟩
      · rintro (h | ⟨hv, hk⟩)
        · exact Or.inl h
        · rcases List.mem_cons.mp hv with rfl | hv'
          · rw [hcls] at hk; cases hk
          · exact Or.inr ⟨hv', hk⟩
    · have hstep : (folderStep base acc f).2 = acc.2 := by
        cases hany : acc.1.any (fun g => g.name == m) <;> simp [folderStep, hcls, hany]
      rw [hstep]
      constructor
      · rintro (h | ⟨hv, hk⟩)
        · exact Or.inl h
        · exact Or.inr ⟨List.mem_cons_of_mem f hv, hk⟩
      · rintro (h | ⟨hv, hk⟩)
        · exact Or.inl h
        · rcases List.mem_cons.mp hv with rfl | hv'
          · rw [hcls] at hk; cases hk
          · exact Or.inr ⟨hv', hk⟩
    · have hstep : (folderStep base acc f).2 = acc.2 ++ [f] := by simp [folderStep, hcls]
      rw [hstep]
      simp only [List.mem_append, List.mem_singleton]
      constructor
      · rintro ((h | h) | ⟨hv, hk⟩)
        · exact Or.inl h
        · exact Or.inr ⟨by rw [h]; exact List.mem_cons_self f rest, by rw [h]; exact hcls⟩
        · exact Or.inr ⟨List.mem_cons_of_mem f hv, hk⟩
      · rintro (h | ⟨hv, hk⟩)
        · exact Or.inl (Or.inl h)
        · rcases List.mem_cons.mp hv with rfl | hv'
          · exact Or.inl (Or.inr rfl)
          · exact Or.inr ⟨hv', hk⟩

/-- C10, amended: for a selected source, the listing is exactly a block
of folder entries followed by a block of file entries; each immediate
subfolder name appears exactly once (and only actual immediate
subfolders appear), folders are sorted by name and files by rel_path
under the sort comparator, and every listed file belongs to the selected
source and lies under the current path — where an empty current path
(the source root) admits every item of the source. -/
theorem folderEntries_spec (lc : String → String → Bool)
    (htrans : ∀ a b c, lc a b = true → lc b c = true → lc a c = true)
    (htot : ∀ a b, lc a b = true ∨ lc b a = true)
    (videos : List MediaEntry) (src base : String) (hsrc : src ≠ "") :
    ∃ (fl : List FolderEntry) (fi : List MediaEntry),
      folderEntries lc videos src base = fl.map LibEntry.folder ++ fi.map LibEntry.file ∧
      (fl.map FolderEntry.name).Nodup ∧
      fl.Pairwise (fun a b => lc a.name b.name = true) ∧
      fi.Pairwise (fun a b => lc a.rel_path b.rel_path = true) ∧
      (∀ n, n ∈ fl.map FolderEntry.name ↔
        isImmediateSubfolder base (videos.filter (fun v => v.source_id == src)) n) ∧
      (∀ v ∈ fi, v ∈ videos.filter (fun v => v.source_id == src) ∧
        (base = "" ∨ normalizePath v.rel_path = base ∨
          prefixB (base.data ++ ['/']) (normalizePath v.rel_path).data = true)) := by
  haveI : IsTotal FolderEntry (byName lc) := ⟨fun a b => htot a.name b.name⟩
  haveI : IsTrans FolderEntry (byName lc) :=
    ⟨fun a b c hab hbc => htrans a.name b.name c.name hab hbc⟩
  haveI : IsTotal MediaEntry (byRelPath lc) := ⟨fun a b => htot a.rel_path b.rel_path⟩
  haveI : IsTrans MediaEntry (byRelPath lc) :=
    ⟨fun a b c hab hbc => htrans a.rel_path b.rel_path c.rel_path hab hbc⟩
  refine ⟨List.insertionSort (byName lc)
      ((videos.filter (fun v => v.source_id == src)).foldl (folderStep base) ([], [])).1,
    List.insertionSort (byRelPath lc)
      ((videos.filter (fun v => v.source_id == src)).foldl (folderStep base) ([], [])).2,
    ?_, ?_, ?_, ?_, ?_, ?_⟩
  · simp only [folderEntries, if_neg hsrc]
  · have h1 : ((((videos.filter (fun v => v.source_id == src)).foldl
        (folderStep base) ([], [])).1).map FolderEntry.name).Nodup :=
      foldl_names_nodup base _ ([], []) (by simp)
    have hperm := (List.perm_insertionSort (byName lc)
      ((videos.filter (fun v => v.source_id == src)).foldl (folderStep base) ([], [])).1).map
        FolderEntry.name
    exact hperm.nodup_iff.mpr h1
  · exact List.sorted_insertionSort (byName lc) _
  · exact List.sorted_insertionSort (byRelPath lc) _
  · intro n
    have hperm := (List.perm_insertionSort (byName lc)
      ((videos.filter (fun v => v.source_id == src)).foldl (folderStep base) ([], [])).1).map
        FolderEntry.name
    rw [hperm.mem_iff]
    rw [foldl_names_mem base (videos.filter (fun v => v.source_id == src)) ([], []) n]
    simp only [List.map_nil, List.not_mem_nil, false_or]
    constructor
    · rintro ⟨v, hv, hcls⟩
      by_cases hb : base = ""
      · subst hb
        rcases (classify_folderK_iff_root v n).mp hcls with ⟨hns, more, hdec⟩
        exact ⟨hns, v, hv, more, by rw [hdec]; simp⟩
      · rcases (classify_folderK_iff_base base hb v n).mp hcls with ⟨hns, more, hdec⟩
        exact ⟨hns, v, hv, more, by rw [hdec]; simp [hb]⟩
    · rintro ⟨hns, v, hv, more, hdec⟩
      by_cases hb : base = ""
      · subst hb
        refine ⟨v, hv, (classify_folderK_iff_root v n).mpr ⟨hns, more, ?_⟩⟩
        simpa using hdec
      · refine ⟨v, hv, (classify_folderK_iff_base base hb v n).mpr ⟨hns, more, ?_⟩⟩
        rw [hdec]
        simp [hb]
  · intro v hv
    have hperm := List.perm_insertionSort (byRelPath lc)
      ((videos.filter (fun v => v.source_id == src)).foldl (folderStep base) ([], [])).2
    have hv2 := hperm.mem_iff.mp hv
    rw [foldl_files_mem base (videos.filter (fun v => v.source_id == src)) ([], []) v] at hv2
    simp only [List.not_mem_nil, false_or] at hv2
    exact ⟨hv2.1, classify_fileK_filter base v hv2.2⟩

/-- Witness for C10 on a concrete source with a nested and a direct
item, at the source root. -/
theorem folderEntries_spec_witness :
    ∃ (fl : List FolderEntry) (fi : List MediaEntry),
      folderEntries lcLe
          [⟨1, "s", "d/x.mp4", "x", 0, 0⟩, ⟨2, "s", "b.mp4", "b", 0, 0⟩] "s" "" =
        fl.map LibEntry.folder ++ fi.map LibEntry.file ∧
      (fl.map FolderEntry.name).Nodup ∧
      fl.Pairwise (fun a b => lcLe a.name b.name = true) ∧
      fi.Pairwise (fun a b => lcLe a.rel_path b.rel_path = true) ∧
      (∀ n, n ∈ fl.map FolderEntry.name ↔
        isImmediateSubfolder ""
          (([⟨1, "s", "d/x.mp4", "x", 0, 0⟩, ⟨2, "s", "b.mp4", "b", 0, 0⟩] :
            List MediaEntry).filter (fun v => v.source_id == "s")) n) ∧
      (∀ v ∈ fi,
        v ∈ ([⟨1, "s", "d/x.mp4", "x", 0, 0⟩, ⟨2, "s", "b.mp4", "b", 0, 0⟩] :
            List MediaEntry).filter (fun v => v.source_id == "s") ∧
        ("" = "" ∨ normalizePath v.rel_path = "" ∨
          prefixB (("" : String).data ++ ['/']) (normalizePath v.rel_path).data = true)) :=
  folderEntries_spec lcLe lcLe_trans lcLe_total
    [⟨1, "s", "d/x.mp4", "x", 0, 0⟩, ⟨2, "s", "b.mp4", "b", 0, 0⟩] "s" "" (by decide)

/-- C10, counterexample to the claim as stated: at the source root the
current path is the empty string, and the listed file `a.mp4` neither
equals the current path nor starts with the current path followed by a
slash — the literal inclusion condition fails at the root. -/
theorem folderEntries_root_counterexample :
    LibEntry.file ⟨1, "s", "a.mp4", "a", 0, 0⟩ ∈
        folderEntries lcLe [⟨1, "s", "a.mp4", "a", 0, 0⟩] "s" "" ∧
    ¬(normalizePath "a.mp4" = "" ∨
        prefixB (("" : String).data ++ ['/']) (normalizePath "a.mp4").data = true) := by
  constructor
  · decide
  · decide

/-! ## C4: job retry/restart semantics

The transition logic lives in the backend orchestrator (the torrent and
youtube service modules), which is not among the available sources; the
frontend only posts to `/restart` and `/retry` and gates the buttons
(`restartVisible`, `retryVisible` above).  The orchestrator is therefore
modelled from the design specification (sections 4.5 and 7).
-/

/-- The error taxonomy of the design specification, section 7. -/
inductive AppError where
  | notFound
  | conflict
  | invalidState
deriving DecidableEq, Repr

/-- A Job record as the orchestrator owns it (specification section 3). -/
structure Job where
  id : Nat
  kind : String
  source_id : String
  target_rel_path : String
  display_name : String
  status : String
  progress_percent : Nat
  error_message : Option String
  result_media_entry_id : Option Nat
deriving DecidableEq, Repr

/-- Modelled from the spec: the orchestrator's retry/restart transition
(section 4.5: `stopped → queued` and `failed → queued` re-enter the
queue with the same parameters and clear `errorMessage`; a retry of a
`done` job raises `InvalidStateError`).  The backend service modules
implementing this are not under the available sources. -/
def retryJob (j : Job) : Except AppError Job :=
  if j.status = "stopped" ∨ j.status = "failed" then
    Except.ok { j with status := "queued", error_message := none }
  else Except.error AppError.invalidState

/-- C4: a stopped or failed job is re-queued with identical parameters
and a cleared error message; retrying a done job fails with
`InvalidStateError`. -/
theorem retry_restart_spec (j : Job) :
    ((j.status = "stopped" ∨ j.status = "failed") →
      ∃ j', retryJob j = Except.ok j' ∧ j'.status = "queued" ∧ j'.error_message = none ∧
        j'.id = j.id ∧ j'.kind = j.kind ∧ j'.source_id = j.source_id ∧
        j'.target_rel_path = j.target_rel_path ∧ j'.display_name = j.display_name ∧
        j'.progress_percent = j.progress_percent ∧
        j'.result_media_entry_id = j.result_media_entry_id) ∧
    (j.status = "done" → retryJob j = Except.error AppError.invalidState) := by
  constructor
  · intro h
    exact ⟨{ j with status := "queued", error_message := none },
      by simp [retryJob, h], rfl, rfl, rfl, rfl, rfl, rfl, rfl, rfl, rfl⟩
  · intro h
    have hne : ¬(j.status = "stopped" ∨ j.status = "failed") := by
      rw [h]; decide
    simp [retryJob, hne]

/-- Witness for C4: a failed torrent job is re-queued; a done job is
rejected. -/
theorem retry_restart_witness :
    (∃ j', retryJob ⟨1, "torrent", "movies", "x.mp4", "X", "failed", 40, some "boom", none⟩ =
        Except.ok j' ∧ j'.status = "queued" ∧ j'.error_message = none ∧
        j'.id = 1 ∧ j'.kind = "torrent" ∧ j'.source_id = "movies" ∧
        j'.target_rel_path = "x.mp4" ∧ j'.display_name = "X" ∧
        j'.progress_percent = 40 ∧ j'.result_media_entry_id = none) ∧
    retryJob ⟨2, "torrent", "movies", "y.mp4", "Y", "done", 100, none, some 9⟩ =
      Except.error AppError.invalidState :=
  ⟨(retry_restart_spec ⟨1, "torrent", "movies", "x.mp4", "X", "failed", 40, some "boom", none⟩).1
      (Or.inr rfl),
    (retry_restart_spec ⟨2, "torrent", "movies", "y.mp4", "Y", "done", 100, none, some 9⟩).2 rfl⟩

/-! ## C5: the move operation

`moveMedia` is implemented by the backend library service (the frontend
`submitMove` in `LibraryPage.vue` lines 209-234 only posts
`{target_source_id, target_rel_path}` to `/api/videos/{id}/move`), so it
is modelled from the design specification (section 6, move operation
boundary: validate the target is free, then update the catalog entry
keeping its id).
-/

/-- `find(id)` of the Catalog contract (specification section 4.2). -/
def find (c : List MediaEntry) (i : Nat) : Option MediaEntry :=
  c.find? (fun e => e.id == i)

/-- Resolution of a `(sourceId, relPath)` mapping in the Catalog. -/
def lookupPath (c : List MediaEntry) (s p : String) : Option MediaEntry :=
  c.find? (fun e => e.source_id == s && e.rel_path == p)

/-- Modelled from the spec: `moveMedia(id, targetSourceId, targetRelPath)`
(section 6): fails with `NotFoundError` for an unknown id, with
`ConflictError` when the target path is occupied, and otherwise
repoints the entry with that id, preserving the id.  The backend
library service implementing this is not under the available sources. -/
def moveMedia (c : List MediaEntry) (i : Nat) (s2 p2 : String) :
    Except AppError (List MediaEntry) :=
  match find c i with
  | none => Except.error AppError.notFound
  | some _ =>
    if (lookupPath c s2 p2).isSome then Except.error AppError.conflict
    else Except.ok
      (c.map (fun e => if e.id == i then { e with source_id := s2, rel_path := p2 } else e))

theorem find_map_move (i : Nat) (s2 p2 : String) :
    ∀ c : List MediaEntry,
      find (c.map (fun e => if e.id == i then { e with source_id := s2, rel_path := p2 }
        else e)) i = (find c i).map
          (fun e => if e.id == i then { e with source_id := s2, rel_path := p2 } else e) := by
  intro c
  induction c with
  | nil => rfl
  | cons a c ih =>
    by_cases h : a.id == i
    · simp only [find, List.map_cons, List.find?_cons]
      rw [if_pos h]
      have hid : ({ a with source_id := s2, rel_path := p2 } : MediaEntry).id == i := h
      simp only [hid, h, Option.map_some]
      simp [beq_iff_eq.mp h]
    · simp only [find, List.map_cons, List.find?_cons]
      rw [if_neg h]
      have h' : (a.id == i) = false := by
        cases hh : a.id == i
        · rfl
        · exact absurd hh h
      simp only [h']
      exact ih

/-- C5: after a successful `moveMedia(id, s2, p2)` on a catalog with
unique ids and unique `(sourceId, relPath)` pairs, `find(id)` returns
the entry repointed to `(s2, p2)` with its id unchanged, and the old
`(sourceId, relPath)` mapping no longer resolves to any entry. -/
theorem moveMedia_spec (c : List MediaEntry) (i : Nat) (s2 p2 : String)
    (c' : List MediaEntry)
    (hids : (c.map MediaEntry.id).Nodup)
    (hpaths : (c.map (fun e => (e.source_id, e.rel_path))).Nodup)
    (hmv : moveMedia c i s2 p2 = Except.ok c') :
    ∃ e, find c i = some e ∧ e.id = i ∧
      find c' i = some { e with source_id := s2, rel_path := p2 } ∧
      lookupPath c' e.source_id e.rel_path = none := by
  rcases hfind : find c i with _ | e
  · simp only [moveMedia, hfind] at hmv
    cases hmv
  · simp only [moveMedia, hfind] at hmv
    by_cases hconf : (lookupPath c s2 p2).isSome
    · rw [if_pos hconf] at hmv; cases hmv
    · rw [if_neg hconf] at hmv
      injection hmv with hc'
      have hfind2 : c.find? (fun x => x.id == i) = some e := hfind
      have he_mem : e ∈ c := List.mem_of_find?_eq_some hfind2
      have he_id : e.id = i :=
        beq_iff_eq.mp (List.find?_some (p := fun x => x.id == i) (a := e) hfind2)
      have hlook : lookupPath c s2 p2 = none := by
        cases hh : lookupPath c s2 p2
        · rfl
        · rw [hh] at hconf; simp at hconf
      have hall := List.find?_eq_none.mp hlook
      have hne_target : ¬(e.source_id = s2 ∧ e.rel_path = p2) := by
        rintro ⟨h1, h2⟩
        exact hall e he_mem (by simp [h1, h2])
      refine ⟨e, rfl, he_id, ?_, ?_⟩
      · rw [← hc', find_map_move i s2 p2 c, hfind]
        simp [he_id]
      · rw [← hc']
        apply List.find?_eq_none.mpr
        intro x hx
        rcases List.mem_map.mp hx with ⟨e2, he2mem, rfl⟩
        by_cases hid2 : (e2.id == i) = true
        · have heq : e2 = e :=
            List.inj_on_of_nodup_map hids he2mem he_mem
              (by rw [beq_iff_eq.mp hid2, he_id])
          subst heq
          rw [if_pos hid2]
          intro hb
          simp only [Bool.and_eq_true, beq_iff_eq] at hb
          exact hne_target ⟨hb.1.symm, hb.2.symm⟩
        · rw [if_neg hid2]
          intro hb
          simp only [Bool.and_eq_true, beq_iff_eq] at hb
          have heq : e2 = e :=
            List.inj_on_of_nodup_map hpaths he2mem he_mem (by rw [hb.1, hb.2])
          exact hid2 (beq_iff_eq.mpr (by rw [heq]; exact he_id))

/-- Witness for C5: moving entry 1 from `(s1, old/a.mp4)` to
`(s2, a/b.mp4)` in a two-entry catalog. -/
theorem moveMedia_spec_witness :
    ∃ e, find [⟨1, "s1", "old/a.mp4", "a", 5, 7⟩, ⟨2, "s2", "keep.mp4", "k", 1, 2⟩] 1 =
        some e ∧ e.id = 1 ∧
      find [⟨1, "s2", "a/b.mp4", "a", 5, 7⟩, ⟨2, "s2", "keep.mp4", "k", 1, 2⟩] 1 =
        some { e with source_id := "s2", rel_path := "a/b.mp4" } ∧
      lookupPath [⟨1, "s2", "a/b.mp4", "a", 5, 7⟩, ⟨2, "s2", "keep.mp4", "k", 1, 2⟩]
        e.source_id e.rel_path = none :=
  moveMedia_spec
    [⟨1, "s1", "old/a.mp4", "a", 5, 7⟩, ⟨2, "s2", "keep.mp4", "k", 1, 2⟩] 1 "s2" "a/b.mp4"
    [⟨1, "s2", "a/b.mp4", "a", 5, 7⟩, ⟨2, "s2", "keep.mp4", "k", 1, 2⟩]
    (by decide) (by decide) (by rfl)

/-! ## C6 and C7: the Library Indexer

The indexer, identity store and catalog reconciliation live in the
backend library service, which is not among the available sources; they
are modelled from the design specification (sections 4.1-4.3 and 8).
Key-addressed lists model the persisted tables; a generic toolkit of
keyed-list operations is developed first.
-/

/-- A file on disk as the rescan walk reports it (spec section 4.3). -/
structure FileInfo where
  source_id : String
  rel_path : String
  size_bytes : Nat
  modified_at : Nat
deriving DecidableEq, Repr

/-- Modelled from the spec: the Identity Store state (section 4.1), a
persistent `(sourceId, relPath) → id` mapping plus the next fresh id. -/
structure IdState where
  idMap : List ((String × String) × Nat)
  nextId : Nat
deriving DecidableEq, Repr

/-- Look up the stable id recorded for `(s, p)`. -/
def lookupId (ids : IdState) (s p : String) : Option Nat :=
  (ids.idMap.find? (fun kv => decide (kv.1 = (s, p)))).map Prod.snd

/-- Modelled from the spec: `resolveId(sourceId, relPath)` (section 4.1)
returns the existing id if the pair was seen before, otherwise allocates
a fresh globally-unique id and persists the mapping.  The third
component reports whether a new id was allocated. -/
def resolveId (ids : IdState) (s p : String) : Nat × IdState × Bool :=
  match ids.idMap.find? (fun kv => decide (kv.1 = (s, p))) with
  | some kv => (kv.2, ids, false)
  | none => (ids.nextId, ⟨ids.idMap ++ [((s, p), ids.nextId)], ids.nextId + 1⟩, true)

/-- The MediaEntry the indexer upserts for a file with resolved id
`rid` (spec section 4.3: current size and mtime; the title is derived
deterministically from the path). -/
def entryFor (rid : Nat) (f : FileInfo) : MediaEntry :=
  ⟨rid, f.source_id, f.rel_path, f.rel_path, f.size_bytes, f.modified_at⟩

/-! ### A generic toolkit for `(sourceId, relPath)`-keyed lists -/

section Keyed

variable {α : Type} (keyOf : α → String × String)

/-- The key test `(sourceId, relPath) = (s, p)` as a Bool predicate. -/
def kpred (s p : String) (x : α) : Bool :=
  (keyOf x).1 == s && (keyOf x).2 == p

/-- First element with the given key. -/
def kfind (l : List α) (s p : String) : Option α :=
  l.find? (kpred keyOf s p)

/-- Replace the element at the key of `a` if present, else append. -/
def kupsert (l : List α) (a : α) : List α :=
  if l.any (kpred keyOf (keyOf a).1 (keyOf a).2) then
    l.map (fun x => if kpred keyOf (keyOf a).1 (keyOf a).2 x then a else x)
  else l ++ [a]

/-- Remove every element at the given key. -/
def kremove (l : List α) (s p : String) : List α :=
  l.filter (fun x => !(kpred keyOf s p x))

theorem kpred_iff (s p : String) (x : α) :
    kpred keyOf s p x = true ↔ keyOf x = (s, p) := by
  simp [kpred, Prod.ext_iff]

theorem kpred_self (a : α) : kpred keyOf (keyOf a).1 (keyOf a).2 a = true := by
  simp [kpred]

theorem kfind_some {l : List α} {s p : String} {x : α}
    (h : kfind keyOf l s p = some x) : keyOf x = (s, p) ∧ x ∈ l :=
  ⟨(kpred_iff keyOf s p x).mp (List.find?_some (p := kpred keyOf s p) h),
    List.mem_of_find?_eq_some h⟩

theorem kfind_eq_none_iff (l : List α) (s p : String) :
    kfind keyOf l s p = none ↔ ∀ x ∈ l, keyOf x ≠ (s, p) := by
  unfold kfind
  rw [List.find?_eq_none]
  constructor
  · intro h x hx hk
    exact h x hx ((kpred_iff keyOf s p x).mpr hk)
  · intro h x hx hk
    exact h x hx ((kpred_iff keyOf s p x).mp hk)

theorem kupsert_find_self (l : List α) (a : α) :
    kfind keyOf (kupsert keyOf l a) (keyOf a).1 (keyOf a).2 = some a := by
  unfold kupsert
  by_cases hany : l.any (kpred keyOf (keyOf a).1 (keyOf a).2) = true
  · rw [if_pos hany]
    induction l with
    | nil => cases hany
    | cons g rest ih =>
      by_cases hg : kpred keyOf (keyOf a).1 (keyOf a).2 g = true
      · simp only [List.map_cons, kfind, List.find?_cons, if_pos hg, kpred_self]
      · have hrest : rest.any (kpred keyOf (keyOf a).1 (keyOf a).2) = true := by
          rcases List.any_eq_true.mp hany with ⟨y, hy, hpy⟩
          rcases List.mem_cons.mp hy with rfl | hy'
          · exact absurd hpy hg
          · exact List.any_eq_true.mpr ⟨y, hy', hpy⟩
        simp only [List.map_cons]
        rw [if_neg hg]
        unfold kfind
        rw [List.find?_cons_of_neg _ hg]
        exact ih hrest
  · rw [if_neg hany]
    unfold kfind
    rw [List.find?_append]
    have hnone : l.find? (kpred keyOf (keyOf a).1 (keyOf a).2) = none := by
      rw [List.find?_eq_none]
      intro x hx hp
      exact hany (List.any_eq_true.mpr ⟨x, hx, hp⟩)
    rw [hnone]
    simp [List.find?_cons, kpred_self]

theorem kupsert_find_other (l : List α) (a : α) (s p : String)
    (hne : (s, p) ≠ keyOf a) :
    kfind keyOf (kupsert keyOf l a) s p = kfind keyOf l s p := by
  unfold kupsert
  by_cases hany : l.any (kpred keyOf (keyOf a).1 (keyOf a).2) = true
  · rw [if_pos hany]
    clear hany
    induction l with
    | nil => rfl
    | cons g rest ih =>
      by_cases hg : kpred keyOf (keyOf a).1 (keyOf a).2 g = true
      · have hga : keyOf g = keyOf a := by
          have := (kpred_iff keyOf _ _ g).mp hg
          simpa using this
        have hpa : kpred keyOf s p a = false := by
          cases hpp : kpred keyOf s p a
          · rfl
          · exact absurd ((kpred_iff keyOf s p a).mp hpp).symm hne
        have hpg : kpred keyOf s p g = false := by
          cases hpp : kpred keyOf s p g
          · rfl
          · exact absurd (hga ▸ (kpred_iff keyOf s p g).mp hpp).symm hne
        simp only [List.map_cons, kfind, List.find?_cons, if_pos hg, hpa, hpg]
        exact ih
      · simp only [List.map_cons, kfind, List.find?_cons, if_neg hg]
        cases hpg : kpred keyOf s p g
        · exact ih
        · rfl
  · rw [if_neg hany]
    unfold kfind
    rw [List.find?_append]
    have hpa : kpred keyOf s p a = false := by
      cases hpp : kpred keyOf s p a
      · rfl
      · exact absurd ((kpred_iff keyOf s p a).mp hpp).symm hne
    simp [List.find?_cons, hpa]

theorem kremove_find_self (l : List α) (s p : String) :
    kfind keyOf (kremove keyOf l s p) s p = none := by
  unfold kfind kremove
  rw [List.find?_eq_none]
  intro x hx
  have := (List.mem_filter.mp hx).2
  intro hp
  rw [hp] at this
  cases this

theorem kremove_find_other (l : List α) (s p s2 p2 : String)
    (hne : (s2, p2) ≠ (s, p)) :
    kfind keyOf (kremove keyOf l s p) s2 p2 = kfind keyOf l s2 p2 := by
  unfold kfind kremove
  induction l with
  | nil => rfl
  | cons g rest ih =>
    by_cases hg : kpred keyOf s p g = true
    · have hpg : kpred keyOf s2 p2 g = false := by
        cases hpp : kpred keyOf s2 p2 g
        · rfl
        · exact absurd (((kpred_iff keyOf s2 p2 g).mp hpp).symm.trans
            ((kpred_iff keyOf s p g).mp hg)) hne
      rw [List.filter_cons_of_neg (by simp [hg])]
      rw [List.find?_cons_of_neg _ (by simp [hpg])]
      exact ih
    · have hg' : kpred keyOf s p g = false := by
        cases hgg : kpred keyOf s p g
        · rfl
        · exact absurd hgg hg
      rw [List.filter_cons_of_pos (by rw [hg']; rfl)]
      cases hpg : kpred keyOf s2 p2 g
      · rw [List.find?_cons_of_neg _ (by simp [hpg]),
          List.find?_cons_of_neg _ (by simp [hpg])]
        exact ih
      · rw [List.find?_cons_of_pos _ hpg, List.find?_cons_of_pos _ hpg]

theorem kupsert_keys_nodup (l : List α) (a : α)
    (h : (l.map keyOf).Nodup) : ((kupsert keyOf l a).map keyOf).Nodup := by
  unfold kupsert
  by_cases hany : l.any (kpred keyOf (keyOf a).1 (keyOf a).2) = true
  · rw [if_pos hany]
    have heq : (l.map (fun x => if kpred keyOf (keyOf a).1 (keyOf a).2 x then a else x)).map
        keyOf = l.map keyOf := by
      rw [List.map_map]
      apply List.map_congr_left
      intro x _
      by_cases hx : kpred keyOf (keyOf a).1 (keyOf a).2 x = true
      · have : keyOf x = keyOf a := by
          have := (kpred_iff keyOf _ _ x).mp hx
          simpa using this
        simp [Function.comp, hx, this]
      · simp [Function.comp, hx]
    rw [heq]
    exact h
  · rw [if_neg hany, List.map_append]
    rw [List.nodup_append]
    refine ⟨h, List.nodup_singleton _, ?_⟩
    intro k hk hk2
    simp only [List.map_cons, List.map_nil, List.mem_singleton] at hk2
    rcases List.mem_map.mp hk with ⟨x, hx, hkx⟩
    apply hany
    apply List.any_eq_true.mpr
    refine ⟨x, hx, (kpred_iff keyOf _ _ x).mpr ?_⟩
    rw [hkx, hk2]

theorem kremove_keys_nodup (l : List α) (s p : String)
    (h : (l.map keyOf).Nodup) : ((kremove keyOf l s p).map keyOf).Nodup :=
  ((List.filter_sublist l).map keyOf).nodup h

end Keyed

/-- The key of a file on disk. -/
def fileKey (f : FileInfo) : String × String := (f.source_id, f.rel_path)

/-- The key of a catalog entry. -/
def entryKey (e : MediaEntry) : String × String := (e.source_id, e.rel_path)

theorem resolveId_of_lookup {ids : IdState} {s p : String} {r : Nat}
    (h : lookupId ids s p = some r) : resolveId ids s p = (r, ids, false) := by
  unfold lookupId at h
  unfold resolveId
  cases hf : ids.idMap.find? (fun kv => decide (kv.1 = (s, p))) with
  | none => rw [hf] at h; cases h
  | some kv =>
    rw [hf] at h
    have h2 : kv.2 = r := by simpa using h
    show (kv.2, ids, false) = (r, ids, false)
    rw [h2]

theorem lookupId_resolve_self (ids : IdState) (s p : String) :
    lookupId (resolveId ids s p).2.1 s p = some (resolveId ids s p).1 := by
  unfold resolveId
  cases hf : ids.idMap.find? (fun kv => decide (kv.1 = (s, p))) with
  | some kv =>
    simp only [hf]
    unfold lookupId
    rw [hf]
    rfl
  | none =>
    simp only [hf]
    unfold lookupId
    have hmap : (⟨ids.idMap ++ [((s, p), ids.nextId)], ids.nextId + 1⟩ : IdState).idMap =
        ids.idMap ++ [((s, p), ids.nextId)] := rfl
    rw [hmap, List.find?_append, hf]
    simp

theorem lookupId_resolve_mono (ids : IdState) (s p s2 p2 : String) (r : Nat)
    (h : lookupId ids s2 p2 = some r) :
    lookupId (resolveId ids s p).2.1 s2 p2 = some r := by
  unfold resolveId
  cases hf : ids.idMap.find? (fun kv => decide (kv.1 = (s, p))) with
  | some kv => simpa using h
  | none =>
    simp only [hf]
    unfold lookupId at h ⊢
    have hmap : (⟨ids.idMap ++ [((s, p), ids.nextId)], ids.nextId + 1⟩ : IdState).idMap =
        ids.idMap ++ [((s, p), ids.nextId)] := rfl
    rw [hmap, List.find?_append]
    cases hf2 : ids.idMap.find? (fun kv => decide (kv.1 = (s2, p2))) with
    | none => rw [hf2] at h; cases h
    | some kv2 =>
      rw [hf2] at h
      simpa using h

/-- Modelled from the spec: the walk phase of a full rescan (section
4.3): for each file, resolve its id via the Identity Store and build the
MediaEntry with current size/mtime; the counters report how many
catalog entries would actually change (an upsert of an identical entry
is not a mutation) and how many fresh ids were allocated. -/
def rescanFiles (cat : List MediaEntry) (fs : List FileInfo) (ids : IdState) :
    List MediaEntry × IdState × Nat × Nat :=
  match fs with
  | [] => ([], ids, 0, 0)
  | f :: rest =>
    match resolveId ids f.source_id f.rel_path with
    | (rid, ids1, fresh) =>
      let e := entryFor rid f
      let changed : Nat :=
        match kfind entryKey cat f.source_id f.rel_path with
        | some old => if old = e then 0 else 1
        | none => 1
      match rescanFiles cat rest ids1 with
      | (restCat, ids2, muts, allocs) =>
        (e :: restCat, ids2, changed + muts, (if fresh then 1 else 0) + allocs)

/-- Modelled from the spec: a full rescan (section 4.3): walk the files
and afterwards remove every catalog entry whose path was not observed;
returns the new catalog, the new identity state, the number of catalog
mutations (changed upserts plus removals) and the number of new ids. -/
def rescan (cat : List MediaEntry) (fs : List FileInfo) (ids : IdState) :
    List MediaEntry × IdState × Nat × Nat :=
  match rescanFiles cat fs ids with
  | (newCat, ids2, muts, allocs) =>
    let removed := (cat.filter (fun old =>
      !(fs.any (fun f => f.source_id == old.source_id && f.rel_path == old.rel_path)))).length
    (newCat, ids2, muts + removed, allocs)

/-- The canonical entry a catalog holds for file `f` once the identity
store maps its path. -/
def gOf (ids : IdState) (f : FileInfo) : MediaEntry :=
  entryFor ((lookupId ids f.source_id f.rel_path).getD 0) f

theorem rescanFiles_ids_mono :
    ∀ (fs : List FileInfo) (cat : List MediaEntry) (ids : IdState) (s p : String) (r : Nat),
      lookupId ids s p = some r →
      lookupId (rescanFiles cat fs ids).2.1 s p = some r := by
  intro fs
  induction fs with
  | nil => intro cat ids s p r h; simpa [rescanFiles] using h
  | cons f rest ih =>
    intro cat ids s p r h
    rcases hr : resolveId ids f.source_id f.rel_path with ⟨rid, ids1, fresh⟩
    rcases hrec : rescanFiles cat rest ids1 with ⟨restCat, ids2, muts, allocs⟩
    have hstep : (rescanFiles cat (f :: rest) ids).2.1 = ids2 := by
      simp [rescanFiles, hr, hrec]
    rw [hstep]
    have h1 : lookupId ids1 s p = some r := by
      have hm := lookupId_resolve_mono ids f.source_id f.rel_path s p r h
      rw [hr] at hm
      exact hm
    have h2 := ih cat ids1 s p r h1
    rw [hrec] at h2
    exact h2

theorem rescanFiles_ids_covers :
    ∀ (fs : List FileInfo) (cat : List MediaEntry) (ids : IdState) (f : FileInfo),
      f ∈ fs →
      ∃ r, lookupId (rescanFiles cat fs ids).2.1 f.source_id f.rel_path = some r := by
  intro fs
  induction fs with
  | nil => intro cat ids f hf; cases hf
  | cons g rest ih =>
    intro cat ids f hf
    rcases hr : resolveId ids g.source_id g.rel_path with ⟨rid, ids1, fresh⟩
    rcases hrec : rescanFiles cat rest ids1 with ⟨restCat, ids2, muts, allocs⟩
    have hstep : (rescanFiles cat (g :: rest) ids).2.1 = ids2 := by
      simp [rescanFiles, hr, hrec]
    rw [hstep]
    rcases List.mem_cons.mp hf with rfl | hf'
    · have hself := lookupId_resolve_self ids f.source_id f.rel_path
      rw [hr] at hself
      have hm := rescanFiles_ids_mono rest cat ids1 f.source_id f.rel_path rid hself
      rw [hrec] at hm
      exact ⟨rid, hm⟩
    · have := ih cat ids1 f hf'
      rw [hrec] at this
      exact this

theorem rescanFiles_catalog :
    ∀ (fs : List FileInfo) (cat : List MediaEntry) (ids : IdState),
      (rescanFiles cat fs ids).1 = fs.map (gOf (rescanFiles cat fs ids).2.1) := by
  intro fs
  induction fs with
  | nil => intro cat ids; rfl
  | cons f rest ih =>
    intro cat ids
    rcases hr : resolveId ids f.source_id f.rel_path with ⟨rid, ids1, fresh⟩
    rcases hrec : rescanFiles cat rest ids1 with ⟨restCat, ids2, muts, allocs⟩
    have hstep1 : (rescanFiles cat (f :: rest) ids).1 = entryFor rid f :: restCat := by
      simp [rescanFiles, hr, hrec]
    have hstep2 : (rescanFiles cat (f :: rest) ids).2.1 = ids2 := by
      simp [rescanFiles, hr, hrec]
    rw [hstep1, hstep2]
    have hrest : restCat = rest.map (gOf ids2) := by
      have := ih cat ids1
      rw [hrec] at this
      exact this
    have hself := lookupId_resolve_self ids f.source_id f.rel_path
    rw [hr] at hself
    have hm := rescanFiles_ids_mono rest cat ids1 f.source_id f.rel_path rid hself
    rw [hrec] at hm
    have hhead : gOf ids2 f = entryFor rid f := by
      simp [gOf, hm]
    rw [List.map_cons, hhead, hrest]

theorem rescanFiles_stable :
    ∀ (fs : List FileInfo) (cat : List MediaEntry) (ids : IdState),
      (∀ f ∈ fs, ∃ r, lookupId ids f.source_id f.rel_path = some r ∧
        kfind entryKey cat f.source_id f.rel_path = some (entryFor r f)) →
      rescanFiles cat fs ids = (fs.map (gOf ids), ids, 0, 0) := by
  intro fs
  induction fs with
  | nil => intro cat ids _; rfl
  | cons f rest ih =>
    intro cat ids h
    rcases h f (List.mem_cons_self f rest) with ⟨r, hlook, hcat⟩
    have hr : resolveId ids f.source_id f.rel_path = (r, ids, false) :=
      resolveId_of_lookup hlook
    have hrec : rescanFiles cat rest ids = (rest.map (gOf ids), ids, 0, 0) :=
      ih cat ids (fun g hg => h g (List.mem_cons_of_mem f hg))
    have hhead : gOf ids f = entryFor r f := by simp [gOf, hlook]
    simp [rescanFiles, hr, hrec, hcat, hhead]

theorem kfind_map_of_nodup {α β : Type} (keyA : α → String × String)
    (keyB : β → String × String) (g : α → β) (hg : ∀ x, keyB (g x) = keyA x) :
    ∀ (l : List α), (l.map keyA).Nodup → ∀ x ∈ l,
      kfind keyB (l.map g) (keyA x).1 (keyA x).2 = some (g x) := by
  intro l
  induction l with
  | nil => intro _ x hx; cases hx
  | cons a rest ih =>
    intro hnd x hx
    rw [List.map_cons, List.nodup_cons] at hnd
    rcases List.mem_cons.mp hx with rfl | hx'
    · rw [List.map_cons]
      unfold kfind
      rw [List.find?_cons_of_pos _ ((kpred_iff keyB _ _ (g x)).mpr (hg x))]
    · rw [List.map_cons]
      unfold kfind
      rw [List.find?_cons_of_neg]
      · exact ih hnd.2 x hx'
      · intro hp
        have hk := (kpred_iff keyB _ _ (g a)).mp hp
        rw [hg a] at hk
        exact hnd.1 (hk ▸ List.mem_map_of_mem keyA hx')

/-- C6: running a full rescan again, with no filesystem change, on the
state produced by a rescan performs zero catalog mutations and
allocates zero new ids; the catalog and identity store are unchanged. -/
theorem rescan_idempotent (cat0 : List MediaEntry) (fs : List FileInfo) (ids0 : IdState)
    (hdist : (fs.map fileKey).Nodup)
    (cat1 : List MediaEntry) (ids1 : IdState) (m a : Nat)
    (h1 : rescan cat0 fs ids0 = (cat1, ids1, m, a)) :
    rescan cat1 fs ids1 = (cat1, ids1, 0, 0) := by
  rcases hrf : rescanFiles cat0 fs ids0 with ⟨newCat, ids2, muts, allocs⟩
  have hun : rescan cat0 fs ids0 = (newCat, ids2,
      muts + (cat0.filter (fun old =>
        !(fs.any (fun f => f.source_id == old.source_id &&
          f.rel_path == old.rel_path)))).length, allocs) := by
    simp [rescan, hrf]
  rw [hun] at h1
  have hcat : newCat = cat1 := congrArg Prod.fst h1
  have hids : ids2 = ids1 := congrArg (fun x => x.2.1) h1
  subst hcat
  subst hids
  have hshape : newCat = fs.map (gOf ids2) := by
    have := rescanFiles_catalog fs cat0 ids0
    rw [hrf] at this
    exact this
  have hstable : ∀ f ∈ fs, ∃ r, lookupId ids2 f.source_id f.rel_path = some r ∧
      kfind entryKey newCat f.source_id f.rel_path = some (entryFor r f) := by
    intro f hf
    have hcov := rescanFiles_ids_covers fs cat0 ids0 f hf
    rw [hrf] at hcov
    rcases hcov with ⟨r, hr⟩
    refine ⟨r, hr, ?_⟩
    rw [hshape]
    have hkf := kfind_map_of_nodup fileKey entryKey (gOf ids2)
      (fun x => rfl) fs hdist f hf
    have hgf : gOf ids2 f = entryFor r f := by simp [gOf, hr]
    rw [← hgf]
    exact hkf
  have h2 := rescanFiles_stable fs newCat ids2 hstable
  rw [← hshape] at h2
  have hrem : (newCat.filter (fun old =>
      !(fs.any (fun f => f.source_id == old.source_id &&
        f.rel_path == old.rel_path)))) = [] := by
    rw [List.filter_eq_nil_iff]
    intro old hold
    rw [hshape] at hold
    rcases List.mem_map.mp hold with ⟨f, hf, rfl⟩
    have hany : fs.any (fun g => g.source_id == (gOf ids2 f).source_id &&
        g.rel_path == (gOf ids2 f).rel_path) = true :=
      List.any_eq_true.mpr ⟨f, hf, by simp [gOf, entryFor]⟩
    simp [hany]
  simp [rescan, h2, hrem]

/-- Witness for C6: a two-file filesystem, rescanned from the state its
first rescan produced, reports zero mutations and zero allocations. -/
theorem rescan_idempotent_witness :
    rescan
      [⟨0, "movies", "x.mp4", "x.mp4", 100, 1⟩, ⟨1, "movies", "d/y.mp4", "d/y.mp4", 5, 2⟩]
      [⟨"movies", "x.mp4", 100, 1⟩, ⟨"movies", "d/y.mp4", 5, 2⟩]
      ⟨[(("movies", "x.mp4"), 0), (("movies", "d/y.mp4"), 1)], 2⟩ =
    ([⟨0, "movies", "x.mp4", "x.mp4", 100, 1⟩, ⟨1, "movies", "d/y.mp4", "d/y.mp4", 5, 2⟩],
      ⟨[(("movies", "x.mp4"), 0), (("movies", "d/y.mp4"), 1)], 2⟩, 0, 0) :=
  rescan_idempotent [] [⟨"movies", "x.mp4", 100, 1⟩, ⟨"movies", "d/y.mp4", 5, 2⟩]
    ⟨[], 0⟩ (by decide)
    [⟨0, "movies", "x.mp4", "x.mp4", 100, 1⟩, ⟨1, "movies", "d/y.mp4", "d/y.mp4", 5, 2⟩]
    ⟨[(("movies", "x.mp4"), 0), (("movies", "d/y.mp4"), 1)], 2⟩ 2 2 (by rfl)

theorem lookupId_resolve_other (ids : IdState) (s p s2 p2 : String)
    (hne : (s2, p2) ≠ (s, p)) :
    lookupId (resolveId ids s p).2.1 s2 p2 = lookupId ids s2 p2 := by
  unfold resolveId
  cases hf : ids.idMap.find? (fun kv => decide (kv.1 = (s, p))) with
  | some kv => rfl
  | none =>
    unfold lookupId
    show Option.map Prod.snd
        ((ids.idMap ++ [((s, p), ids.nextId)]).find? (fun kv => decide (kv.1 = (s2, p2)))) = _
    rw [List.find?_append]
    have hsing : ([((s, p), ids.nextId)].find? (fun kv => decide (kv.1 = (s2, p2)))) = none := by
      simp [List.find?_cons, Ne.symm hne]
    rw [hsing]
    simp

theorem kfind_self_of_nodup {α : Type} (keyOf : α → String × String)
    (l : List α) (hnd : (l.map keyOf).Nodup) (x : α) (hx : x ∈ l) :
    kfind keyOf l (keyOf x).1 (keyOf x).2 = some x := by
  have h := kfind_map_of_nodup keyOf keyOf id (fun _ => rfl) l hnd x hx
  rw [List.map_id] at h
  exact h

/-! ### The incremental indexer and the convergence property (C7)

Modelled from the spec (section 4.3): a filesystem mutation raises a
`created`/`modified`/`removed` event; after the debounce window the
indexer stats the path — upserting the entry if the file is present,
removing it only if it is still absent.  Events are processed in order
against the filesystem state they produced, which is the post-debounce
outcome the specification prescribes.
-/

/-- A filesystem mutation together with the change event it raises. -/
inductive FsOp where
  | created (f : FileInfo)
  | modified (f : FileInfo)
  | removed (s p : String)
deriving DecidableEq, Repr

/-- The whole indexing system: filesystem contents, catalog, identity
store. -/
structure SystemState where
  fs : List FileInfo
  catalog : List MediaEntry
  ids : IdState
deriving DecidableEq, Repr

/-- Modelled from the spec: apply one filesystem mutation and process
the event it raises through the indexer (section 4.3 incremental
update: stat after the debounce window, then upsert or remove). -/
def stepSystem (st : SystemState) : FsOp → SystemState
  | FsOp.created f | FsOp.modified f =>
    let fs2 := kupsert fileKey st.fs f
    match kfind fileKey fs2 f.source_id f.rel_path with
    | some g =>
      match resolveId st.ids g.source_id g.rel_path with
      | (rid, ids2, _) => ⟨fs2, kupsert entryKey st.catalog (entryFor rid g), ids2⟩
    | none => ⟨fs2, st.catalog, st.ids⟩
  | FsOp.removed s p =>
    let fs2 := kremove fileKey st.fs s p
    match kfind fileKey fs2 s p with
    | some _ => ⟨fs2, st.catalog, st.ids⟩
    | none => ⟨fs2, kremove entryKey st.catalog s p, st.ids⟩

/-- The indexer invariant: filesystem keys are unique, every present
path has an identity mapping, and the catalog is exactly the image of
the filesystem under the identity store. -/
def IndexInv (st : SystemState) : Prop :=
  (st.fs.map fileKey).Nodup ∧
  (∀ s p, kfind fileKey st.fs s p ≠ none → lookupId st.ids s p ≠ none) ∧
  (∀ s p, kfind entryKey st.catalog s p =
    (kfind fileKey st.fs s p).map (fun f => entryFor ((lookupId st.ids s p).getD 0) f))

theorem stepSystem_upsert_eq (st : SystemState) (f : FileInfo) :
    stepSystem st (FsOp.created f) =
      ⟨kupsert fileKey st.fs f,
        kupsert entryKey st.catalog
          (entryFor (resolveId st.ids f.source_id f.rel_path).1 f),
        (resolveId st.ids f.source_id f.rel_path).2.1⟩ ∧
    stepSystem st (FsOp.modified f) =
      ⟨kupsert fileKey st.fs f,
        kupsert entryKey st.catalog
          (entryFor (resolveId st.ids f.source_id f.rel_path).1 f),
        (resolveId st.ids f.source_id f.rel_path).2.1⟩ := by
  have hf2 : kfind fileKey (kupsert fileKey st.fs f) f.source_id f.rel_path = some f :=
    kupsert_find_self fileKey st.fs f
  rcases hr : resolveId st.ids f.source_id f.rel_path with ⟨rid, ids2, fresh⟩
  constructor <;> simp [stepSystem, hf2, hr]

theorem stepSystem_removed_eq (st : SystemState) (s p : String) :
    stepSystem st (FsOp.removed s p) =
      ⟨kremove fileKey st.fs s p, kremove entryKey st.catalog s p, st.ids⟩ := by
  have hf2 : kfind fileKey (kremove fileKey st.fs s p) s p = none :=
    kremove_find_self fileKey st.fs s p
  simp [stepSystem, hf2]

theorem stepSystem_inv_upsert (st : SystemState) (f : FileInfo) (h : IndexInv st) :
    IndexInv ⟨kupsert fileKey st.fs f,
      kupsert entryKey st.catalog (entryFor (resolveId st.ids f.source_id f.rel_path).1 f),
      (resolveId st.ids f.source_id f.rel_path).2.1⟩ := by
  obtain ⟨hnd, hcov, hcat⟩ := h
  refine ⟨kupsert_keys_nodup fileKey st.fs f hnd, ?_, ?_⟩
  · intro s p hks
    by_cases hkey : (s, p) = (f.source_id, f.rel_path)
    · have hself := lookupId_resolve_self st.ids f.source_id f.rel_path
      rw [Prod.mk.injEq] at hkey
      rw [hkey.1, hkey.2, hself]
      simp
    · rw [lookupId_resolve_other st.ids f.source_id f.rel_path s p hkey]
      apply hcov s p
      rw [← kupsert_find_other fileKey st.fs f s p hkey]
      exact hks
  · intro s p
    by_cases hkey : (s, p) = (f.source_id, f.rel_path)
    · rw [Prod.mk.injEq] at hkey
      obtain ⟨hk1, hk2⟩ := hkey
      subst hk1
      subst hk2
      have hckey : entryKey (entryFor (resolveId st.ids f.source_id f.rel_path).1 f) =
          (f.source_id, f.rel_path) := rfl
      have hc := kupsert_find_self entryKey st.catalog
        (entryFor (resolveId st.ids f.source_id f.rel_path).1 f)
      rw [hckey] at hc
      rw [hc]
      have hfself := kupsert_find_self fileKey st.fs f
      rw [show fileKey f = (f.source_id, f.rel_path) from rfl] at hfself
      rw [hfself]
      have hself := lookupId_resolve_self st.ids f.source_id f.rel_path
      rw [hself]
      rfl
    · have hc := kupsert_find_other entryKey st.catalog
        (entryFor (resolveId st.ids f.source_id f.rel_path).1 f) s p
        (by rw [show entryKey (entryFor (resolveId st.ids f.source_id f.rel_path).1 f) =
          (f.source_id, f.rel_path) from rfl]; exact hkey)
      rw [hc]
      rw [kupsert_find_other fileKey st.fs f s p hkey]
      rw [lookupId_resolve_other st.ids f.source_id f.rel_path s p hkey]
      exact hcat s p

theorem stepSystem_inv_removed (st : SystemState) (s p : String) (h : IndexInv st) :
    IndexInv ⟨kremove fileKey st.fs s p, kremove entryKey st.catalog s p, st.ids⟩ := by
  obtain ⟨hnd, hcov, hcat⟩ := h
  refine ⟨kremove_keys_nodup fileKey st.fs s p hnd, ?_, ?_⟩
  · intro s2 p2 hks
    by_cases hkey : (s2, p2) = (s, p)
    · exfalso
      rw [Prod.mk.injEq] at hkey
      rw [hkey.1, hkey.2] at hks
      exact hks (kremove_find_self fileKey st.fs s p)
    · rw [kremove_find_other fileKey st.fs s p s2 p2 hkey] at hks
      exact hcov s2 p2 hks
  · intro s2 p2
    by_cases hkey : (s2, p2) = (s, p)
    · rw [Prod.mk.injEq] at hkey
      obtain ⟨hk1, hk2⟩ := hkey
      subst hk1
      subst hk2
      rw [kremove_find_self entryKey st.catalog s2 p2,
        kremove_find_self fileKey st.fs s2 p2]
      rfl
    · rw [kremove_find_other entryKey st.catalog s p s2 p2 hkey,
        kremove_find_other fileKey st.fs s p s2 p2 hkey]
      exact hcat s2 p2

theorem stepSystem_inv (st : SystemState) (op : FsOp) (h : IndexInv st) :
    IndexInv (stepSystem st op) := by
  cases op with
  | created f =>
    rw [(stepSystem_upsert_eq st f).1]
    exact stepSystem_inv_upsert st f h
  | modified f =>
    rw [(stepSystem_upsert_eq st f).2]
    exact stepSystem_inv_upsert st f h
  | removed s p =>
    rw [stepSystem_removed_eq st s p]
    exact stepSystem_inv_removed st s p h

theorem foldl_stepSystem_inv :
    ∀ (ops : List FsOp) (st : SystemState), IndexInv st →
      IndexInv (ops.foldl stepSystem st) := by
  intro ops
  induction ops with
  | nil => intro st h; exact h
  | cons op rest ih =>
    intro st h
    rw [List.foldl_cons]
    exact ih (stepSystem st op) (stepSystem_inv st op h)

theorem initState_inv : IndexInv ⟨[], [], ⟨[], 0⟩⟩ := by
  refine ⟨List.nodup_nil, ?_, ?_⟩
  · intro s p hk
    exact absurd rfl hk
  · intro s p
    rfl

/-- C7: after any finite sequence of created/modified/removed events
applied incrementally through the indexer (starting from an empty
system), the catalog resolves every `(sourceId, relPath)` exactly as
the catalog produced by one full rescan of the final filesystem
contents does — the incremental and rescan paths converge. -/
theorem indexer_rescan_convergence (ops : List FsOp) (s p : String) :
    kfind entryKey (ops.foldl stepSystem ⟨[], [], ⟨[], 0⟩⟩).catalog s p =
    kfind entryKey
      (rescan (ops.foldl stepSystem ⟨[], [], ⟨[], 0⟩⟩).catalog
        (ops.foldl stepSystem ⟨[], [], ⟨[], 0⟩⟩).fs
        (ops.foldl stepSystem ⟨[], [], ⟨[], 0⟩⟩).ids).1 s p := by
  obtain ⟨hnd, hcov, hcat⟩ := foldl_stepSystem_inv ops ⟨[], [], ⟨[], 0⟩⟩ initState_inv
  set st := ops.foldl stepSystem ⟨[], [], ⟨[], 0⟩⟩ with hst
  have hstable : ∀ f ∈ st.fs, ∃ r, lookupId st.ids f.source_id f.rel_path = some r ∧
      kfind entryKey st.catalog f.source_id f.rel_path = some (entryFor r f) := by
    intro f hf
    have hfind : kfind fileKey st.fs f.source_id f.rel_path = some f :=
      kfind_self_of_nodup fileKey st.fs hnd f hf
    have hlk := hcov f.source_id f.rel_path (by rw [hfind]; exact fun h => nomatch h)
    rcases hlknot : lookupId st.ids f.source_id f.rel_path with _ | r
    · exact absurd hlknot hlk
    · refine ⟨r, rfl, ?_⟩
      have := hcat f.source_id f.rel_path
      rw [hfind, hlknot] at this
      simpa using this
  have hstab := rescanFiles_stable st.fs st.catalog st.ids hstable
  have hcat1 : (rescan st.catalog st.fs st.ids).1 = st.fs.map (gOf st.ids) := by
    simp [rescan, hstab]
  rw [hcat1]
  rw [hcat s p]
  cases hfs : kfind fileKey st.fs s p with
  | none =>
    have hnone : kfind entryKey (st.fs.map (gOf st.ids)) s p = none := by
      rw [kfind_eq_none_iff]
      intro y hy
      rcases List.mem_map.mp hy with ⟨f, hf, rfl⟩
      have hkf : entryKey (gOf st.ids f) = fileKey f := rfl
      rw [hkf]
      exact (kfind_eq_none_iff fileKey st.fs s p).mp hfs f hf
    rw [hnone]
    rfl
  | some f =>
    obtain ⟨hfk, hfmem⟩ := kfind_some fileKey hfs
    have hkf := kfind_map_of_nodup fileKey entryKey (gOf st.ids) (fun _ => rfl)
      st.fs hnd f hfmem
    rw [hfk] at hkf
    rw [hkf]
    have hsrc : f.source_id = s := congrArg Prod.fst hfk
    have hrel : f.rel_path = p := congrArg Prod.snd hfk
    rw [show gOf st.ids f = entryFor ((lookupId st.ids f.source_id f.rel_path).getD 0) f
      from rfl]
    rw [hsrc, hrel]
    rfl
